import Mathlib

/-!
Verification of the reconciliation logic of `sync.py`, a one-directional
directory synchronizer.  The filesystem is modelled as a finite tree of
files and directories, each carrying a modification time (a rational,
embedding the exact timestamp arithmetic the script performs on floats).
Paths are modelled relative to the two tree roots: `os.path.join(root, rel)`
and `os.path.relpath(abs, root)` are mutually inverse, so a path under a
root is identified with its list of segments below that root, and the
correspondence `join(source, relpath(t, target))` used throughout the
script becomes the identity on relative paths.

The external primitives (`os.walk`, `os.remove`, `shutil.rmtree`,
`shutil.copy2`, `os.makedirs`) are modelled on this tree per the contract
the specification assigns them: copy installs the source file's content and
modification time at the destination path, delete removes a file or a whole
directory subtree, makedirs creates the missing directories of a path.  A
copy whose destination is an existing directory, or whose parent chain runs
through a file, is a failing operation (caught by the script's
per-operation handlers), as is deleting a nonexistent path.
-/

namespace Sync

attribute [local semireducible] Rat.sub Rat.add

/-- A path relative to a tree root, as its list of name segments. -/
abbrev FPath := List String

/-- A filesystem entry: a file or a directory, each with an mtime
(`os.path.getmtime` is defined on both), directories with a named list of
children. -/
inductive FSTree where
  | file (mtime : ℚ)
  | dir (mtime : ℚ) (children : List (String × FSTree))

/-- Modification time of an entry (`os.path.getmtime`). -/
def FSTree.mtime : FSTree → ℚ
  | FSTree.file m => m
  | FSTree.dir m _ => m

/-- Whether an entry is a directory (`os.path.isdir` on an existing path). -/
def FSTree.isDir : FSTree → Bool
  | FSTree.file _ => false
  | FSTree.dir _ _ => true

mutual
/-- Resolve a relative path to the entry it denotes, if any. -/
def FSTree.find : FSTree → FPath → Option FSTree
  | t, [] => some t
  | FSTree.file _, _ :: _ => none
  | FSTree.dir _ cs, n :: p => findIn cs n p

/-- Resolve path `n :: p` inside a children list. -/
def findIn : List (String × FSTree) → String → FPath → Option FSTree
  | [], _, _ => none
  | (m, t) :: rest, n, p => if m = n then t.find p else findIn rest n p
end

/-- The test `os.path.exists` performs on a path below a root. -/
def FSTree.existsAt (t : FSTree) (p : FPath) : Bool :=
  (t.find p).isSome

/-- The value `os.path.getmtime` returns on a path below a root, when the
path exists. -/
def FSTree.mtimeAt (t : FSTree) (p : FPath) : Option ℚ :=
  (t.find p).map FSTree.mtime

/-- The test `os.path.isdir` performs on a path below a root. -/
def FSTree.isDirAt (t : FSTree) (p : FPath) : Bool :=
  match t.find p with
  | some u => u.isDir
  | none => false

/-- sync.py line 8: directory names never descended into. -/
def EXCLUDE_DIRS : List String := ["System Volume Information"]

/-- sync.py line 9: the timestamp tolerance window, 2.0 seconds. -/
def TIME_TOLERANCE : ℚ := 2

/-- sync.py lines 17-23: a target entry should be deleted iff the
corresponding source-side path does not exist. -/
def should_delete_file (source : FSTree) (p : FPath) : Bool :=
  !(source.existsAt p)

/-- Absolute value of a rational, written out as Python's `abs`
computes it (it agrees with `|x|`, see `ratAbs_eq_abs`). -/
def ratAbs (x : ℚ) : ℚ :=
  if x < 0 then -x else x

/-- sync.py lines 25-37: classify a target/source mtime pair.  Returns
the string the Python function returns: with the absolute difference
within tolerance the result is "same"; otherwise "true" exactly when the
target mtime exceeds the source mtime, else "false". -/
def should_overwrite_file (target_mtime source_mtime : ℚ) : String :=
  if ratAbs (target_mtime - source_mtime) ≤ TIME_TOLERANCE then "same"
  else if target_mtime > source_mtime then "true" else "false"

/-- The files yielded at one node of `os.walk`, in listing order, skipping
files named like the running script (sync.py lines 60-62): each such file
as its one-segment relative path with its mtime. -/
def filesOf (sn : String) : List (String × FSTree) → List (FPath × ℚ)
  | [] => []
  | (n, FSTree.file m) :: rest =>
      if n = sn then filesOf sn rest else ([n], m) :: filesOf sn rest
  | (_, FSTree.dir _ _) :: rest => filesOf sn rest

mutual
/-- sync.py line 58 (and line 87): the files produced by a pruned top-down
`os.walk` from a root, as (relative path, mtime) pairs in walk order.  The
`dirs[:] = [d for d in dirs if d not in EXCLUDE_DIRS]` assignment prunes
descent in a top-down walk, so excluded directories are not entered; files
named like the running script are skipped. -/
def FSTree.walkFiles (sn : String) : FSTree → List (FPath × ℚ)
  | FSTree.file _ => []
  | FSTree.dir _ cs => filesOf sn cs ++ subWalks sn cs

/-- The walks of the subdirectories of one node, in listing order.  A
child that is a file contributes nothing (`walkFiles` of a file is empty),
and a child directory whose name is excluded is not descended into. -/
def subWalks (sn : String) : List (String × FSTree) → List (FPath × ℚ)
  | [] => []
  | (n, t) :: rest =>
      (if EXCLUDE_DIRS.contains n then []
       else (t.walkFiles sn).map fun q => (n :: q.1, q.2)) ++ subWalks sn rest
end

/-- The subdirectory paths examined at one node of the bottom-up walk
(sync.py lines 76-84): the node's child directories after the (local)
exclusion filter of line 77, in listing order. -/
def hereChecked : List (String × FSTree) → List FPath
  | [] => []
  | (n, t) :: rest =>
      (if t.isDir && !(EXCLUDE_DIRS.contains n) then [[n]] else []) ++ hereChecked rest

mutual
/-- sync.py lines 76-84: the directory paths examined by the walk
`os.walk(target, topdown=False)`, in the order they are examined.  With
`topdown=False` the walk has already descended into every subdirectory,
including excluded ones, before the `dirs[:]` filter of line 77 runs, so
that filter only removes excluded names from the per-node listing; the
nodes are yielded children before parents. -/
def FSTree.dirsChecked : FSTree → List FPath
  | FSTree.file _ => []
  | FSTree.dir _ cs => subChecked cs ++ hereChecked cs

/-- The directory paths examined inside the subtrees of one node's
children, children in listing order, each child's subtree bottom-up. -/
def subChecked : List (String × FSTree) → List FPath
  | [] => []
  | (n, t) :: rest => (t.dirsChecked.map fun q => n :: q) ++ subChecked rest
end

/-- sync.py lines 69-73: the condition under which a walked target file
with mtime `tm` is appended to `overwrite_candidates`: it is not a delete
candidate, the source-side path exists, and `should_overwrite_file`
returns "true". -/
def owDecision (source : FSTree) (p : FPath) (tm : ℚ) : Bool :=
  if should_delete_file source p then false
  else
    match source.mtimeAt p with
    | some sm => should_overwrite_file tm sm == "true"
    | none => false

/-- sync.py line 96: the condition under which a walked source file with
mtime `sm` is appended to `copy_candidates`: the target-side path does not
exist, or the source mtime strictly exceeds the target-side mtime. -/
def copyCondition (target : FSTree) (p : FPath) (sm : ℚ) : Bool :=
  match target.mtimeAt p with
  | none => true
  | some tm => decide (sm > tm)

/-- The file delete candidates accumulated by the first walk
(sync.py lines 58-70), in walk order. -/
def fileDeleteCandidates (source target : FSTree) (sn : String) : List FPath :=
  ((target.walkFiles sn).filter fun e => should_delete_file source e.1).map Prod.fst

/-- The directory delete candidates accumulated by the bottom-up walk
(sync.py lines 76-84), in walk order. -/
def dirDeleteCandidates (source target : FSTree) : List FPath :=
  target.dirsChecked.filter fun p => !(source.existsAt p)

/-- The overwrite candidates accumulated by the first walk
(sync.py lines 71-73), in walk order. -/
def overwriteCandidatesOf (source target : FSTree) (sn : String) : List FPath :=
  ((target.walkFiles sn).filter fun e => owDecision source e.1 e.2).map Prod.fst

/-- The copy candidates accumulated by the source walk
(sync.py lines 87-97), in walk order.  The script stores the pair
(absolute source path, absolute target path); both share the same
relative path, which is what is recorded here. -/
def copyCandidatesOf (source target : FSTree) (sn : String) : List FPath :=
  ((source.walkFiles sn).filter fun e => copyCondition target e.1 e.2).map Prod.fst

/-- The three candidate lists one run of the planner produces. -/
structure Plan where
  deleteCandidates : List FPath
  overwriteCandidates : List FPath
  copyCandidates : List FPath

/-- sync.py lines 49-97: the planning part of `sync_directories`.  File
delete candidates come first (first walk), then directory delete
candidates (bottom-up walk), sharing one list, exactly as the script
appends to `delete_candidates`. -/
def syncPlan (source target : FSTree) (sn : String) : Plan :=
  ⟨fileDeleteCandidates source target sn ++ dirDeleteCandidates source target,
   overwriteCandidatesOf source target sn,
   copyCandidatesOf source target sn⟩

/-- The containing directory of a path (`os.path.dirname`). -/
def dirname (p : FPath) : FPath :=
  p.dropLast

/-- One step of sync.py lines 41-46: file `f` joins the group of its
containing directory, a new group being appended for a directory not seen
yet. -/
def addFileToGroups (ds : List (FPath × List FPath)) (f : FPath) : List (FPath × List FPath) :=
  if ds.any fun g => g.1 = dirname f then
    ds.map fun g => if g.1 = dirname f then (g.1, g.2 ++ [f]) else g
  else ds ++ [(dirname f, [f])]

/-- sync.py lines 39-47: group a list of paths by containing directory.
A Python dict preserves insertion order, and each new path is appended at
the end of its directory's list, which this association-list fold
reproduces. -/
def group_files_by_directory (files_list : List FPath) : List (FPath × List FPath) :=
  files_list.foldl addFileToGroups []

/-- Render a relative path for a report line. -/
def pathStr (p : FPath) : String :=
  String.intercalate "/" p

/-- sync.py lines 104-110: the deletion summary lines, one collapsed line
for a directory group of more than 20 entries, else one line per entry. -/
def deletionSummary (dels : List FPath) : List String :=
  (group_files_by_directory dels).flatMap fun g =>
    if 20 < g.2.length then ["Delete 20+ files in directory: " ++ pathStr g.1]
    else g.2.map fun f => "Delete file: " ++ pathStr f

/-- sync.py lines 113-119: the overwrite summary lines, same shape as the
deletion summary. -/
def overwriteSummary (ows : List FPath) : List String :=
  (group_files_by_directory ows).flatMap fun g =>
    if 20 < g.2.length then ["Overwrite 20+ files in directory: " ++ pathStr g.1]
    else g.2.map fun f => "Overwrite file: " ++ pathStr f

/-- Pairwise distinctness of a name list, as a Boolean. -/
def namesOk : List String → Bool
  | [] => true
  | n :: rest => !(rest.contains n) && namesOk rest

mutual
/-- Well-formedness of a modelled filesystem: sibling names are distinct,
as they are on a real filesystem. -/
def FSTree.wf : FSTree → Bool
  | FSTree.file _ => true
  | FSTree.dir _ cs => namesOk (cs.map Prod.fst) && wfAll cs

/-- Well-formedness of every tree in a children list. -/
def wfAll : List (String × FSTree) → Bool
  | [] => true
  | (_, t) :: rest => t.wf && wfAll rest
end

mutual
/-- The effect of `shutil.copy2(src, dst)` on the destination tree, at
destination path `p`, installing a file with the source's mtime `m`
(the spec's contract: copy preserves content and modification time).  It
fails when the destination path denotes an existing directory, when the
parent chain runs through a file, or when the parent directory is
missing. -/
def setFile : FSTree → FPath → ℚ → Except String FSTree
  | _, [], _ => Except.error "IsADirectoryError"
  | FSTree.file _, _ :: _, _ => Except.error "NotADirectoryError"
  | FSTree.dir dm cs, n :: p, m => (setFileIn cs n p m).map (FSTree.dir dm)

/-- Install a file at path `n :: p` inside a children list. -/
def setFileIn : List (String × FSTree) → String → FPath → ℚ → Except String (List (String × FSTree))
  | [], n, [], m => Except.ok [(n, FSTree.file m)]
  | [], _, _ :: _, _ => Except.error "FileNotFoundError"
  | (k, t) :: rest, n, p, m =>
      if k = n then
        match p, t with
        | [], FSTree.dir _ _ => Except.error "IsADirectoryError"
        | [], FSTree.file _ => Except.ok ((k, FSTree.file m) :: rest)
        | q :: p2, _ => (setFile t (q :: p2) m).map fun t2 => (k, t2) :: rest
      else (setFileIn rest n p m).map fun rest2 => (k, t) :: rest2
end

/-- A fresh chain of directories along a path, as `os.makedirs` creates
it (created directories get mtime 0; no candidate decision reads it,
since the plan is fixed before execution). -/
def mkdirChain : FPath → FSTree
  | [] => FSTree.dir 0 []
  | n :: p => FSTree.dir 0 [(n, mkdirChain p)]

mutual
/-- The effect of `os.makedirs(d)`: create the missing directories along
`d`.  It fails when the chain runs through an existing file. -/
def makedirs : FSTree → FPath → Except String FSTree
  | t, [] => Except.ok t
  | FSTree.file _, _ :: _ => Except.error "NotADirectoryError"
  | FSTree.dir dm cs, n :: p => (makedirsIn cs n p).map (FSTree.dir dm)

/-- Create the missing directories along `n :: p` inside a children
list. -/
def makedirsIn : List (String × FSTree) → String → FPath → Except String (List (String × FSTree))
  | [], n, p => Except.ok [(n, mkdirChain p)]
  | (k, t) :: rest, n, p =>
      if k = n then (makedirs t p).map fun t2 => (k, t2) :: rest
      else (makedirsIn rest n p).map fun rest2 => (k, t) :: rest2
end

mutual
/-- Remove the entry at a path: `os.remove` for a file, `shutil.rmtree`
for a directory (the spec's contract: delete removes a file or, for a
directory, the directory and everything under it). -/
def removeEntry : FSTree → FPath → FSTree
  | t, [] => t
  | FSTree.file m, _ :: _ => FSTree.file m
  | FSTree.dir dm cs, n :: p => FSTree.dir dm (removeIn cs n p)

/-- Remove the entry at path `n :: p` inside a children list. -/
def removeIn : List (String × FSTree) → String → FPath → List (String × FSTree)
  | [], _, _ => []
  | (k, t) :: rest, n, [] => if k = n then rest else (k, t) :: removeIn rest n []
  | (k, t) :: rest, n, q :: p => if k = n then (k, removeEntry t (q :: p)) :: rest else (k, t) :: removeIn rest n (q :: p)
end

/-- sync.py lines 144 and 155: `shutil.copy2` from the source tree's file
at `p` onto the target-side path `p`. -/
def copy2 (source fs : FSTree) (p : FPath) : Except String FSTree :=
  match source.find p with
  | some (FSTree.file m) => setFile fs p m
  | some (FSTree.dir _ _) => Except.error "IsADirectoryError"
  | none => Except.error "FileNotFoundError"

/-- sync.py lines 130-135: one deletion, `shutil.rmtree` on a directory,
`os.remove` on a file, failing (FileNotFoundError) on a missing path;
paired with the progress line it prints. -/
def deleteOp (fs : FSTree) (p : FPath) : Except String (FSTree × String) :=
  match fs.find p with
  | some (FSTree.dir _ _) => Except.ok (removeEntry fs p, "Deleted directory: " ++ pathStr p)
  | some (FSTree.file _) => Except.ok (removeEntry fs p, "Deleted " ++ pathStr p)
  | none => Except.error "FileNotFoundError"

/-- sync.py lines 140-147: one overwrite: recompute the source path from
the relative path and `shutil.copy2` it onto the target file. -/
def overwriteOp (source fs : FSTree) (p : FPath) : Except String (FSTree × String) :=
  (copy2 source fs p).map fun fs2 => (fs2, "Overwritten " ++ pathStr p)

/-- sync.py lines 150-158: one copy: create the destination directory if
missing, then `shutil.copy2` source to target. -/
def copyOp (source fs : FSTree) (p : FPath) : Except String (FSTree × String) :=
  match (if fs.existsAt (dirname p) then Except.ok fs else makedirs fs (dirname p)) with
  | Except.error e => Except.error e
  | Except.ok fs1 =>
      (copy2 source fs1 p).map fun fs2 => (fs2, "Copied " ++ pathStr p ++ " to " ++ pathStr p)

/-- The state of one execution: the target tree, the progress lines
printed so far, and the accumulated `error_paths` entries. -/
structure ExecResult where
  fs : FSTree
  log : List String
  errors : List String

/-- One of the three execution loops of sync.py (lines 128-137, 140-147,
150-158): process each candidate in order; a successful operation yields
the new tree and a progress line, a failure is caught and appended to
`error_paths` as the phase's error prefix, the path, and the underlying
message, and the loop continues with the next candidate. -/
def runPhase (op : FSTree → FPath → Except String (FSTree × String)) (errPre : String) : ExecResult → List FPath → ExecResult
  | acc, [] => acc
  | acc, p :: rest =>
      match op acc.fs p with
      | Except.ok r => runPhase op errPre ⟨r.1, acc.log ++ [r.2], acc.errors⟩ rest
      | Except.error e => runPhase op errPre ⟨acc.fs, acc.log, acc.errors ++ [errPre ++ pathStr p ++ ": " ++ e]⟩ rest

/-- Whether a character is whitespace for Python's `str.strip`. -/
def isSpaceChar (c : Char) : Bool :=
  c = ' ' || c = '\t' || c = '\n' || c = '\r' || c = '\x0b' || c = '\x0c'

/-- ASCII lowering of one character, as Python's `str.lower` acts on the
ASCII range (the only range relevant to matching "y"). -/
def lowerChar (c : Char) : Char :=
  if 'A' ≤ c && c ≤ 'Z' then Char.ofNat (c.toNat + 32) else c

/-- Python's `str.strip` on a character list: drop whitespace from both
ends. -/
def stripList (l : List Char) : List Char :=
  ((l.dropWhile isSpaceChar).reverse.dropWhile isSpaceChar).reverse

/-- sync.py line 126: the confirmation test
`input(...).strip().lower() == 'y'`. -/
def isYes (answer : String) : Bool :=
  (stripList answer.data).map lowerChar = ['y']

/-- sync.py lines 49-164: a full run of `sync_directories`.  When either
summary is nonempty the summary is printed and the prompt consulted; only
a confirming answer runs the deletion and overwrite loops; the copy loop
always runs; the collected error entries are reported at the end (they
are the `errors` field of the result). -/
def syncRun (source target : FSTree) (sn answer : String) : ExecResult :=
  let plan := syncPlan source target sn
  let ds := deletionSummary plan.deleteCandidates
  let ows := overwriteSummary plan.overwriteCandidates
  let afterDestructive : ExecResult :=
    if 0 < ds.length ∨ 0 < ows.length then
      if isYes answer then
        runPhase (overwriteOp source) "Error overwriting "
          (runPhase deleteOp "Error deleting " ⟨target, ds ++ ows, []⟩ plan.deleteCandidates)
          plan.overwriteCandidates
      else ⟨target, ds ++ ows, []⟩
    else ⟨target, [], []⟩
  runPhase (copyOp source) "Error copying " afterDestructive plan.copyCandidates

/-- Path `q` lies at or below path `d`. -/
def under (d q : FPath) : Prop :=
  ∃ r, q = d ++ r

/-- Element `a` occurs before element `b` in a list. -/
def before (l : List FPath) (a b : FPath) : Prop :=
  ∃ i j : ℕ, ∃ hi : i < l.length, ∃ hj : j < l.length,
    i < j ∧ l.get ⟨i, hi⟩ = a ∧ l.get ⟨j, hj⟩ = b

/-- The facts the plan guarantees about a delete or overwrite candidate
path, used to show the copy phase cannot touch it: it exists on the
target side, and on the source side it either does not exist (delete
candidates) or is an entry strictly older than the target-side file
(overwrite candidates). -/
def protectedFacts (source target : FSTree) (q : FPath) : Prop :=
  (target.find q).isSome = true ∧
    (source.find q = none ∨
      ∃ u tq, source.find q = some u ∧ target.find q = some (FSTree.file tq) ∧ u.mtime < tq)

/-- Concrete target tree for the C1 counterexample: one file, mtime 0. -/
def cxTarget1 : FSTree :=
  FSTree.dir 0 [("a.txt", FSTree.file 0)]

/-- Concrete source tree for the C1 counterexample: the same file, mtime
10, so the target copy is strictly older by far more than the
tolerance. -/
def cxSource1 : FSTree :=
  FSTree.dir 0 [("a.txt", FSTree.file 10)]

/-- Concrete source tree for the C2 counterexample: the same file as the
target, 1 second newer, within the 2-second tolerance. -/
def cxSource2 : FSTree :=
  FSTree.dir 0 [("a.txt", FSTree.file 1)]

/-- Concrete target tree for the C3 input: an excluded directory with a
subdirectory inside it. -/
def cxTarget3 : FSTree :=
  FSTree.dir 0 [("System Volume Information", FSTree.dir 0 [("sub", FSTree.dir 0 [])])]

/-- Concrete empty source tree. -/
def cxEmpty : FSTree :=
  FSTree.dir 0 []

/-- Concrete target tree with a nested directory chain holding one file,
for exercising the deletion ordering. -/
def cxTarget6 : FSTree :=
  FSTree.dir 0 [("a", FSTree.dir 0 [("b", FSTree.dir 0 [("f.txt", FSTree.file 0)])])]

/-- Concrete target tree holding a directory named like the running
script. -/
def cxTarget10 : FSTree :=
  FSTree.dir 0 [("sync.py", FSTree.dir 0 [])]

/-- Concrete multi-group candidate list: 21 entries in one directory
and 20 in another. -/
def cxNine : List FPath :=
  List.replicate 21 ["d", "f"] ++ List.replicate 20 ["e", "g"]

/-! Helper lemmas about paths and the prefix order. -/

theorem ratAbs_eq_abs (x : ℚ) : ratAbs x = |x| := by
  unfold ratAbs
  rcases lt_or_le x 0 with h | h
  · rw [if_pos h, abs_of_neg h]
  · rw [if_neg (not_lt.mpr h), abs_of_nonneg h]

theorem under_refl (p : FPath) : under p p :=
  ⟨[], by simp⟩

theorem under_nil (q : FPath) : under [] q :=
  ⟨q, rfl⟩

theorem under_cons {n k : String} {a b : FPath} :
    under (n :: a) (k :: b) ↔ n = k ∧ under a b := by
  constructor
  · rintro ⟨r, h⟩
    rw [List.cons_append] at h
    injection h with h1 h2
    exact ⟨h1.symm, ⟨r, h2⟩⟩
  · rintro ⟨rfl, r, rfl⟩
    exact ⟨r, rfl⟩

theorem under_len_le {a b : FPath} (h : under a b) : a.length ≤ b.length := by
  obtain ⟨r, rfl⟩ := h
  simp

theorem eq_of_under_of_len {a b : FPath} (h : under a b) (hl : b.length ≤ a.length) : a = b := by
  obtain ⟨r, rfl⟩ := h
  have : r = [] := by
    simp only [List.length_append] at hl
    exact List.eq_nil_of_length_eq_zero (by omega)
  simp [this]

theorem under_of_isPrefixOf : ∀ {d x : FPath}, d.isPrefixOf x = true → under d x
  | [], x, _ => under_nil x
  | _ :: _, [], h => by simp [List.isPrefixOf] at h
  | d :: ds, x :: xs, h => by
    simp only [List.isPrefixOf, Bool.and_eq_true, beq_iff_eq] at h
    exact under_cons.mpr ⟨h.1, under_of_isPrefixOf h.2⟩

theorem under_append_right {a b : FPath} (r : FPath) (h : under a b) : under a (b ++ r) := by
  obtain ⟨s, rfl⟩ := h
  exact ⟨s ++ r, by simp⟩

/-! Helper lemmas about path resolution. -/

mutual
theorem find_append : ∀ (t : FSTree) (p q : FPath),
    t.find (p ++ q) = (t.find p).bind fun u => u.find q
  | t, [], q => by simp [FSTree.find]
  | FSTree.file m, n :: p2, q => by simp [FSTree.find]
  | FSTree.dir dm cs, n :: p2, q => by
    simpa [FSTree.find] using findIn_append cs n p2 q

theorem findIn_append : ∀ (cs : List (String × FSTree)) (n : String) (p q : FPath),
    findIn cs n (p ++ q) = (findIn cs n p).bind fun u => u.find q
  | [], n, p, q => by simp [findIn]
  | (k, t) :: rest, n, p, q => by
    by_cases h : k = n
    · simp only [findIn, if_pos h]
      exact find_append t p q
    · simp only [findIn, if_neg h]
      exact findIn_append rest n p q
end

theorem find_some_of_under {t : FSTree} {d q : FPath} (h : under d q)
    (hq : (t.find q).isSome = true) : (t.find d).isSome = true := by
  obtain ⟨r, rfl⟩ := h
  rw [find_append] at hq
  cases hd : t.find d with
  | none => rw [hd] at hq; simp at hq
  | some u => simp

theorem find_dir_of_strict {t : FSTree} {d r : FPath} {e : FSTree} (hr : r ≠ [])
    (h : t.find (d ++ r) = some e) : ∃ m cs, t.find d = some (FSTree.dir m cs) := by
  rw [find_append] at h
  rcases Option.bind_eq_some.mp h with ⟨u, hu, hur⟩
  cases u with
  | file m =>
    cases r with
    | nil => exact absurd rfl hr
    | cons x r2 => simp [FSTree.find] at hur
  | dir m cs => exact ⟨m, cs, hu⟩

theorem findIn_some : ∀ {cs : List (String × FSTree)} {n : String} {p : FPath} {e : FSTree},
    findIn cs n p = some e → ∃ t, (n, t) ∈ cs ∧ t.find p = some e := by
  intro cs
  induction cs with
  | nil => intro n p e h; simp [findIn] at h
  | cons kt rest ih =>
    intro n p e h
    obtain ⟨k, t⟩ := kt
    by_cases hk : k = n
    · subst hk
      rw [findIn, if_pos rfl] at h
      exact ⟨t, List.mem_cons_self _ _, h⟩
    · rw [findIn, if_neg hk] at h
      obtain ⟨t2, ht2, hf⟩ := ih h
      exact ⟨t2, List.mem_cons_of_mem _ ht2, hf⟩

theorem contains_false_not_mem {l : List String} {a : String} (h : l.contains a = false) :
    a ∉ l := by
  intro hm
  have : l.contains a = true := List.elem_eq_true_of_mem hm
  rw [this] at h
  cases h

theorem findIn_of_mem_nodup : ∀ {cs : List (String × FSTree)} {n : String} {t : FSTree},
    namesOk (cs.map Prod.fst) = true → (n, t) ∈ cs → ∀ p, findIn cs n p = t.find p := by
  intro cs
  induction cs with
  | nil => intro n t _ hm; simp at hm
  | cons kt rest ih =>
    intro n t hok hm p
    obtain ⟨k, u⟩ := kt
    simp only [List.map_cons, namesOk, Bool.and_eq_true, Bool.not_eq_true'] at hok
    rcases List.mem_cons.mp hm with he | hm2
    · injection he with h1 h2
      subst h1; subst h2
      rw [findIn, if_pos rfl]
    · have hk : ¬ k = n := by
        intro hkn
        subst hkn
        exact contains_false_not_mem hok.1 (List.mem_map.mpr ⟨(k, t), hm2, rfl⟩)
      rw [findIn, if_neg hk]
      exact ih hok.2 hm2 p

/-! Helper lemmas about well-formedness. -/

theorem wf_dir {dm : ℚ} {cs : List (String × FSTree)} (h : (FSTree.dir dm cs).wf = true) :
    namesOk (cs.map Prod.fst) = true ∧ wfAll cs = true := by
  rw [FSTree.wf] at h
  exact Bool.and_eq_true_iff.mp h

theorem wfAll_mem : ∀ {cs : List (String × FSTree)} {n : String} {t : FSTree},
    wfAll cs = true → (n, t) ∈ cs → t.wf = true := by
  intro cs
  induction cs with
  | nil => intro n t _ hm; simp at hm
  | cons kt rest ih =>
    intro n t h hm
    obtain ⟨k, u⟩ := kt
    rw [wfAll] at h
    rcases Bool.and_eq_true_iff.mp h with ⟨h1, h2⟩
    rcases List.mem_cons.mp hm with he | hm2
    · injection he with e1 e2
      subst e2; exact h1
    · exact ih h2 hm2

/-! Helper lemmas about the top-down file walk. -/

theorem filesOf_mem : ∀ {sn : String} {cs : List (String × FSTree)} {p : FPath} {m : ℚ},
    (p, m) ∈ filesOf sn cs → ∃ n, p = [n] ∧ ¬ n = sn ∧ (n, FSTree.file m) ∈ cs := by
  intro sn cs
  induction cs with
  | nil => intro p m h; simp [filesOf] at h
  | cons kt rest ih =>
    intro p m h
    obtain ⟨k, t⟩ := kt
    cases t with
    | file fm =>
      rw [filesOf] at h
      by_cases hk : k = sn
      · rw [if_pos hk] at h
        obtain ⟨n, h1, h2, h3⟩ := ih h
        exact ⟨n, h1, h2, List.mem_cons_of_mem _ h3⟩
      · rw [if_neg hk] at h
        rcases List.mem_cons.mp h with he | hm
        · injection he with e1 e2
          subst e2
          exact ⟨k, e1, hk, by rw [List.mem_cons]; exact Or.inl rfl⟩
        · obtain ⟨n, h1, h2, h3⟩ := ih hm
          exact ⟨n, h1, h2, List.mem_cons_of_mem _ h3⟩
    | dir dm dcs =>
      rw [filesOf] at h
      obtain ⟨n, h1, h2, h3⟩ := ih h
      exact ⟨n, h1, h2, List.mem_cons_of_mem _ h3⟩

theorem subWalks_mem : ∀ {sn : String} {cs : List (String × FSTree)} {p : FPath} {m : ℚ},
    (p, m) ∈ subWalks sn cs →
    ∃ n q t, p = n :: q ∧ (n, t) ∈ cs ∧ EXCLUDE_DIRS.contains n = false ∧
      (q, m) ∈ t.walkFiles sn := by
  intro sn cs
  induction cs with
  | nil => intro p m h; simp [subWalks] at h
  | cons kt rest ih =>
    intro p m h
    obtain ⟨k, t⟩ := kt
    rw [subWalks] at h
    rcases List.mem_append.mp h with hl | hr
    · by_cases hk : EXCLUDE_DIRS.contains k
      · rw [if_pos hk] at hl; simp at hl
      · rw [if_neg hk] at hl
        obtain ⟨⟨q, qm⟩, hq, he⟩ := List.mem_map.mp hl
        injection he with e1 e2
        subst e2
        exact ⟨k, q, t, e1.symm, List.mem_cons_self _ _,
          Bool.not_eq_true _ ▸ eq_false_of_ne_true hk, hq⟩
    · obtain ⟨n, q, t2, h1, h2, h3, h4⟩ := ih hr
      exact ⟨n, q, t2, h1, List.mem_cons_of_mem _ h2, h3, h4⟩

mutual
theorem walkFiles_find : ∀ (t : FSTree), t.wf = true → ∀ {sn : String} {p : FPath} {m : ℚ},
    (p, m) ∈ t.walkFiles sn → t.find p = some (FSTree.file m)
  | FSTree.file fm, _, _, p, m, h => by rw [FSTree.walkFiles] at h; simp at h
  | FSTree.dir dm cs, hwf, sn, p, m, h => by
    obtain ⟨hok, hall⟩ := wf_dir hwf
    rw [FSTree.walkFiles] at h
    rcases List.mem_append.mp h with hl | hr
    · obtain ⟨n, rfl, _, hmem⟩ := filesOf_mem hl
      rw [FSTree.find, findIn_of_mem_nodup hok hmem]
      rfl
    · obtain ⟨n, q, t2, rfl, hmem, _, hq⟩ := subWalks_mem hr
      rw [FSTree.find, findIn_of_mem_nodup hok hmem]
      exact walkFiles_findMem cs hall hmem hq

theorem walkFiles_findMem : ∀ (cs : List (String × FSTree)), wfAll cs = true →
    ∀ {n : String} {t : FSTree}, (n, t) ∈ cs → ∀ {sn : String} {q : FPath} {m : ℚ},
    (q, m) ∈ t.walkFiles sn → t.find q = some (FSTree.file m)
  | [], _, n, t, hm, _, _, _, _ => by simp at hm
  | (k, u) :: rest, hall, n, t, hm, sn, q, m, hq => by
    rw [wfAll] at hall
    rcases Bool.and_eq_true_iff.mp hall with ⟨h1, h2⟩
    rcases List.mem_cons.mp hm with he | hm2
    · injection he with e1 e2
      subst e2
      exact walkFiles_find t h1 hq
    · exact walkFiles_findMem rest h2 hm2 hq
end

theorem walk_mtime_unique {sn : String} {t : FSTree} {p : FPath} {m m2 : ℚ}
    (hwf : t.wf = true) (h1 : (p, m) ∈ t.walkFiles sn) (h2 : (p, m2) ∈ t.walkFiles sn) :
    m = m2 := by
  have e1 := walkFiles_find t hwf h1
  have e2 := walkFiles_find t hwf h2
  rw [e1] at e2
  injection e2 with e3
  injection e3

/-! Helper lemmas about the bottom-up directory walk. -/

theorem hereChecked_mem : ∀ {cs : List (String × FSTree)} {p : FPath},
    p ∈ hereChecked cs →
    ∃ n t, p = [n] ∧ (n, t) ∈ cs ∧ t.isDir = true ∧ EXCLUDE_DIRS.contains n = false := by
  intro cs
  induction cs with
  | nil => intro p h; simp [hereChecked] at h
  | cons kt rest ih =>
    intro p h
    obtain ⟨k, t⟩ := kt
    rw [hereChecked] at h
    rcases List.mem_append.mp h with hl | hr
    · by_cases hc : t.isDir && !(EXCLUDE_DIRS.contains k)
      · rw [if_pos hc] at hl
        rcases Bool.and_eq_true_iff.mp hc with ⟨h1, h2⟩
        rcases List.mem_singleton.mp hl with rfl
        exact ⟨k, t, rfl, List.mem_cons_self _ _, h1, by simpa using h2⟩
      · rw [if_neg hc] at hl; simp at hl
    · obtain ⟨n, t2, h1, h2, h3, h4⟩ := ih hr
      exact ⟨n, t2, h1, List.mem_cons_of_mem _ h2, h3, h4⟩

theorem hereChecked_of_mem : ∀ {cs : List (String × FSTree)} {n : String} {t : FSTree},
    (n, t) ∈ cs → t.isDir = true → EXCLUDE_DIRS.contains n = false →
    [n] ∈ hereChecked cs := by
  intro cs
  induction cs with
  | nil => intro n t hm; simp at hm
  | cons kt rest ih =>
    intro n t hm hd he
    obtain ⟨k, u⟩ := kt
    rw [hereChecked]
    rcases List.mem_cons.mp hm with heq | hm2
    · injection heq with e1 e2
      subst e1; subst e2
      rw [List.mem_append]
      left
      rw [if_pos (by rw [hd, he]; rfl)]
      exact List.mem_singleton.mpr rfl
    · exact List.mem_append.mpr (Or.inr (ih hm2 hd he))

theorem subChecked_mem : ∀ {cs : List (String × FSTree)} {p : FPath},
    p ∈ subChecked cs → ∃ n q t, p = n :: q ∧ (n, t) ∈ cs ∧ q ∈ t.dirsChecked := by
  intro cs
  induction cs with
  | nil => intro p h; simp [subChecked] at h
  | cons kt rest ih =>
    intro p h
    obtain ⟨k, t⟩ := kt
    rw [subChecked] at h
    rcases List.mem_append.mp h with hl | hr
    · obtain ⟨q, hq, rfl⟩ := List.mem_map.mp hl
      exact ⟨k, q, t, rfl, List.mem_cons_self _ _, hq⟩
    · obtain ⟨n, q, t2, h1, h2, h3⟩ := ih hr
      exact ⟨n, q, t2, h1, List.mem_cons_of_mem _ h2, h3⟩

theorem subChecked_of_mem : ∀ {cs : List (String × FSTree)} {n : String} {t : FSTree} {q : FPath},
    (n, t) ∈ cs → q ∈ t.dirsChecked → (n :: q) ∈ subChecked cs := by
  intro cs
  induction cs with
  | nil => intro n t q hm; simp at hm
  | cons kt rest ih =>
    intro n t q hm hq
    obtain ⟨k, u⟩ := kt
    rw [subChecked]
    rcases List.mem_cons.mp hm with heq | hm2
    · injection heq with e1 e2
      subst e1; subst e2
      exact List.mem_append.mpr (Or.inl (List.mem_map.mpr ⟨q, hq, rfl⟩))
    · exact List.mem_append.mpr (Or.inr (ih hm2 hq))

mutual
theorem dirsChecked_find : ∀ (t : FSTree), t.wf = true → ∀ {p : FPath},
    p ∈ t.dirsChecked → ∃ dm dcs, t.find p = some (FSTree.dir dm dcs)
  | FSTree.file fm, _, p, h => by rw [FSTree.dirsChecked] at h; simp at h
  | FSTree.dir dm cs, hwf, p, h => by
    obtain ⟨hok, hall⟩ := wf_dir hwf
    rw [FSTree.dirsChecked] at h
    rcases List.mem_append.mp h with hl | hr
    · obtain ⟨n, q, t2, rfl, hmem, hq⟩ := subChecked_mem hl
      rw [FSTree.find, findIn_of_mem_nodup hok hmem]
      exact dirsChecked_findMem cs hall hmem hq
    · obtain ⟨n, t2, rfl, hmem, hd, _⟩ := hereChecked_mem hr
      rw [FSTree.find, findIn_of_mem_nodup hok hmem]
      cases t2 with
      | file fm => simp [FSTree.isDir] at hd
      | dir em ecs => exact ⟨em, ecs, rfl⟩

theorem dirsChecked_findMem : ∀ (cs : List (String × FSTree)), wfAll cs = true →
    ∀ {n : String} {t : FSTree}, (n, t) ∈ cs → ∀ {q : FPath},
    q ∈ t.dirsChecked → ∃ dm dcs, t.find q = some (FSTree.dir dm dcs)
  | [], _, n, t, hm, _, _ => by simp at hm
  | (k, u) :: rest, hall, n, t, hm, q, hq => by
    rw [wfAll] at hall
    rcases Bool.and_eq_true_iff.mp hall with ⟨h1, h2⟩
    rcases List.mem_cons.mp hm with he | hm2
    · injection he with e1 e2
      subst e2
      exact dirsChecked_find t h1 hq
    · exact dirsChecked_findMem rest h2 hm2 hq
end

theorem dirsChecked_of_find : ∀ (q : FPath) (t : FSTree) {n : String} {dm : ℚ}
    {dcs : List (String × FSTree)}, t.find (q ++ [n]) = some (FSTree.dir dm dcs) →
    EXCLUDE_DIRS.contains n = false → (q ++ [n]) ∈ t.dirsChecked
  | [], t, n, dm, dcs, h, he => by
    cases t with
    | file fm => simp [FSTree.find] at h
    | dir em cs =>
      rw [List.nil_append] at h ⊢
      rw [FSTree.find] at h
      obtain ⟨t2, hmem, hf⟩ := findIn_some h
      rw [FSTree.find] at hf
      injection hf with hf2
      subst hf2
      rw [FSTree.dirsChecked]
      exact List.mem_append.mpr (Or.inr (hereChecked_of_mem hmem rfl he))
  | x :: q2, t, n, dm, dcs, h, he => by
    cases t with
    | file fm => simp [FSTree.find] at h
    | dir em cs =>
      rw [List.cons_append, FSTree.find] at h
      obtain ⟨t2, hmem, hf⟩ := findIn_some h
      have hsub := dirsChecked_of_find q2 t2 hf he
      rw [FSTree.dirsChecked, List.cons_append]
      exact List.mem_append.mpr (Or.inl (subChecked_of_mem hmem hsub))

/-! The bottom-up walk examines descendants before ancestors. -/

mutual
theorem dirsChecked_pairwise : ∀ (t : FSTree), t.wf = true →
    List.Pairwise (fun a b => under a b → a = b) t.dirsChecked
  | FSTree.file _, _ => by
    rw [FSTree.dirsChecked]
    exact List.Pairwise.nil
  | FSTree.dir dm cs, hwf => by
    obtain ⟨hok, hall⟩ := wf_dir hwf
    rw [FSTree.dirsChecked, List.pairwise_append]
    refine ⟨subChecked_pairwise cs hok hall, ?_, ?_⟩
    · apply List.pairwise_of_forall_mem_list
      intro a ha b hb hu
      obtain ⟨n, t1, rfl, _⟩ := hereChecked_mem ha
      obtain ⟨n2, t2, rfl, _⟩ := hereChecked_mem hb
      exact eq_of_under_of_len hu (by simp)
    · intro a ha b hb hu
      obtain ⟨n, q, t1, rfl, _⟩ := subChecked_mem ha
      obtain ⟨n2, t2, rfl, _⟩ := hereChecked_mem hb
      exact eq_of_under_of_len hu (by simp)

theorem subChecked_pairwise : ∀ (cs : List (String × FSTree)),
    namesOk (cs.map Prod.fst) = true → wfAll cs = true →
    List.Pairwise (fun a b => under a b → a = b) (subChecked cs)
  | [], _, _ => by
    rw [subChecked]
    exact List.Pairwise.nil
  | (k, u) :: rest, hok, hall => by
    rw [List.map_cons, namesOk] at hok
    rcases Bool.and_eq_true_iff.mp hok with ⟨hk, hok2⟩
    rw [wfAll] at hall
    rcases Bool.and_eq_true_iff.mp hall with ⟨hu, hall2⟩
    rw [subChecked, List.pairwise_append]
    refine ⟨?_, subChecked_pairwise rest hok2 hall2, ?_⟩
    · exact List.Pairwise.map _
        (fun a b hab hu2 => by
          rcases under_cons.mp hu2 with ⟨_, hu3⟩
          rw [hab hu3])
        (dirsChecked_pairwise u hu)
    · intro a ha b hb hu2
      obtain ⟨q, hq, rfl⟩ := List.mem_map.mp ha
      obtain ⟨n2, q2, t2, rfl, hm2, _⟩ := subChecked_mem hb
      rcases under_cons.mp hu2 with ⟨hk2, _⟩
      exfalso
      have hkc : (List.map Prod.fst rest).contains k = false := by
        cases hcc : (List.map Prod.fst rest).contains k with
        | false => rfl
        | true =>
          have : ((k, u).1 : String) = k := rfl
          rw [this, hcc] at hk
          cases hk
      refine contains_false_not_mem hkc ?_
      rw [hk2]
      exact List.mem_map.mpr ⟨(n2, t2), hm2, rfl⟩
end

/-! Helper lemmas about list positions. -/

theorem get_append_inl (l1 l2 : List FPath) (i : ℕ) (hi : i < l1.length)
    (H : i < (l1 ++ l2).length) :
    (l1 ++ l2).get ⟨i, H⟩ = l1.get ⟨i, hi⟩ := by
  rw [List.get_eq_getElem, List.get_eq_getElem]
  exact List.getElem_append_left hi

theorem get_append_offset (l1 l2 : List FPath) (j : ℕ) (hj : j < l2.length)
    (H : l1.length + j < (l1 ++ l2).length) :
    (l1 ++ l2).get ⟨l1.length + j, H⟩ = l2.get ⟨j, hj⟩ := by
  rw [List.get_eq_getElem, List.get_eq_getElem]
  simp only [Nat.add_comm l1.length j]
  exact (List.getElem_append_right' l1 hj).symm

theorem before_append_of_mem {l1 l2 : List FPath} {a b : FPath}
    (ha : a ∈ l1) (hb : b ∈ l2) : before (l1 ++ l2) a b := by
  obtain ⟨⟨i, hi⟩, hgi⟩ := List.mem_iff_get.mp ha
  obtain ⟨⟨j, hj⟩, hgj⟩ := List.mem_iff_get.mp hb
  have H1 : i < (l1 ++ l2).length := by rw [List.length_append]; omega
  have H2 : l1.length + j < (l1 ++ l2).length := by rw [List.length_append]; omega
  refine ⟨i, l1.length + j, H1, H2, by omega, ?_, ?_⟩
  · rw [get_append_inl l1 l2 i hi]
    exact hgi
  · rw [get_append_offset l1 l2 j hj]
    exact hgj

theorem before_append_right {l1 l2 : List FPath} {a b : FPath}
    (h : before l2 a b) : before (l1 ++ l2) a b := by
  obtain ⟨i, j, hi, hj, hij, hgi, hgj⟩ := h
  have H1 : l1.length + i < (l1 ++ l2).length := by rw [List.length_append]; omega
  have H2 : l1.length + j < (l1 ++ l2).length := by rw [List.length_append]; omega
  refine ⟨l1.length + i, l1.length + j, H1, H2, by omega, ?_, ?_⟩
  · rw [get_append_offset l1 l2 i hi]
    exact hgi
  · rw [get_append_offset l1 l2 j hj]
    exact hgj

theorem pairwise_before {l : List FPath}
    (hp : List.Pairwise (fun a b => under a b → a = b) l)
    {d x : FPath} (hd : d ∈ l) (hx : x ∈ l) (hne : d ≠ x) (hu : under d x) :
    before l x d := by
  obtain ⟨⟨i, hi⟩, hgi⟩ := List.mem_iff_get.mp hd
  obtain ⟨⟨j, hj⟩, hgj⟩ := List.mem_iff_get.mp hx
  rcases lt_trichotomy i j with h | h | h
  · exfalso
    have := List.pairwise_iff_get.mp hp ⟨i, hi⟩ ⟨j, hj⟩ (by exact h)
    rw [hgi, hgj] at this
    exact hne (this hu)
  · exfalso
    apply hne
    subst h
    rw [← hgi, ← hgj]
  · exact ⟨j, i, hj, hi, h, hgj, hgi⟩

/-! Helper lemmas about path observers. -/

theorem existsAt_false_iff {t : FSTree} {p : FPath} :
    t.existsAt p = false ↔ t.find p = none := by
  unfold FSTree.existsAt
  cases t.find p <;> simp

theorem mtimeAt_some_iff {t : FSTree} {p : FPath} {sm : ℚ} :
    t.mtimeAt p = some sm ↔ ∃ u, t.find p = some u ∧ u.mtime = sm := by
  unfold FSTree.mtimeAt
  cases t.find p <;> simp

theorem mtimeAt_none_iff {t : FSTree} {p : FPath} :
    t.mtimeAt p = none ↔ t.find p = none := by
  unfold FSTree.mtimeAt
  cases t.find p <;> simp

/-! Helper lemmas about the classification conditions. -/

theorem should_overwrite_file_true_iff {tm sm : ℚ} :
    (should_overwrite_file tm sm == "true") = true ↔
      TIME_TOLERANCE < ratAbs (tm - sm) ∧ sm < tm := by
  unfold should_overwrite_file
  by_cases h1 : ratAbs (tm - sm) ≤ TIME_TOLERANCE
  · rw [if_pos h1]
    constructor
    · intro h; exact absurd h (by decide)
    · rintro ⟨h2, _⟩; exact absurd h1 (not_le.mpr h2)
  · rw [if_neg h1]
    by_cases h2 : tm > sm
    · rw [if_pos h2]
      simpa using ⟨not_le.mp h1, h2⟩
    · rw [if_neg h2]
      constructor
      · intro h; exact absurd h (by decide)
      · rintro ⟨_, h3⟩; exact absurd h3 h2

theorem owDecision_true_iff {source : FSTree} {p : FPath} {tm : ℚ} :
    owDecision source p tm = true ↔
      ∃ sm, source.mtimeAt p = some sm ∧ TIME_TOLERANCE < ratAbs (tm - sm) ∧ sm < tm := by
  unfold owDecision should_delete_file FSTree.existsAt FSTree.mtimeAt
  cases hf : source.find p with
  | none =>
    simp
  | some u =>
    simp only [Option.isSome_some, Bool.not_true, Bool.false_eq_true, if_false,
      Option.map_some', Option.some.injEq]
    rw [show (∃ sm, u.mtime = sm ∧ TIME_TOLERANCE < ratAbs (tm - sm) ∧ sm < tm) ↔
        (TIME_TOLERANCE < ratAbs (tm - u.mtime) ∧ u.mtime < tm) from
      ⟨fun ⟨sm, he, h⟩ => he ▸ h, fun h => ⟨u.mtime, rfl, h⟩⟩]
    exact should_overwrite_file_true_iff

theorem copyCondition_true_iff {target : FSTree} {p : FPath} {sm : ℚ} :
    copyCondition target p sm = true ↔
      (target.existsAt p = false ∨ ∃ tm, target.mtimeAt p = some tm ∧ tm < sm) := by
  unfold copyCondition FSTree.existsAt FSTree.mtimeAt
  cases hf : target.find p with
  | none =>
    simp
  | some u =>
    simp only [Option.map_some', Option.isSome_some, Option.some.injEq]
    constructor
    · intro h
      exact Or.inr ⟨u.mtime, rfl, by simpa using h⟩
    · rintro (hfalse | ⟨tm2, htm2, hlt⟩)
      · simp at hfalse
      · subst htm2
        simpa using hlt

/-! Membership in the candidate lists. -/

theorem mem_fileDeleteCandidates {source target : FSTree} {sn : String} {p : FPath} :
    p ∈ fileDeleteCandidates source target sn ↔
      (∃ m, (p, m) ∈ target.walkFiles sn) ∧ source.existsAt p = false := by
  unfold fileDeleteCandidates
  constructor
  · intro h
    obtain ⟨e, he, rfl⟩ := List.mem_map.mp h
    obtain ⟨hmem, hcond⟩ := List.mem_filter.mp he
    refine ⟨⟨e.2, by simpa using hmem⟩, ?_⟩
    unfold should_delete_file at hcond
    simpa using hcond
  · rintro ⟨⟨m, hmem⟩, hfalse⟩
    refine List.mem_map.mpr ⟨(p, m), List.mem_filter.mpr ⟨hmem, ?_⟩, rfl⟩
    unfold should_delete_file
    simpa using hfalse

theorem mem_dirDeleteCandidates {source target : FSTree} {p : FPath} :
    p ∈ dirDeleteCandidates source target ↔
      p ∈ target.dirsChecked ∧ source.existsAt p = false := by
  unfold dirDeleteCandidates
  rw [List.mem_filter]
  simp

theorem mem_overwriteCandidates {source target : FSTree} {sn : String} {p : FPath} :
    p ∈ overwriteCandidatesOf source target sn ↔
      ∃ tm, (p, tm) ∈ target.walkFiles sn ∧ owDecision source p tm = true := by
  unfold overwriteCandidatesOf
  constructor
  · intro h
    obtain ⟨e, he, rfl⟩ := List.mem_map.mp h
    obtain ⟨hmem, hcond⟩ := List.mem_filter.mp he
    exact ⟨e.2, by simpa using hmem, hcond⟩
  · rintro ⟨tm, hmem, hcond⟩
    exact List.mem_map.mpr ⟨(p, tm), List.mem_filter.mpr ⟨hmem, hcond⟩, rfl⟩

theorem mem_copyCandidates {source target : FSTree} {sn : String} {p : FPath} :
    p ∈ copyCandidatesOf source target sn ↔
      ∃ sm, (p, sm) ∈ source.walkFiles sn ∧ copyCondition target p sm = true := by
  unfold copyCandidatesOf
  constructor
  · intro h
    obtain ⟨e, he, rfl⟩ := List.mem_map.mp h
    obtain ⟨hmem, hcond⟩ := List.mem_filter.mp he
    exact ⟨e.2, by simpa using hmem, hcond⟩
  · rintro ⟨sm, hmem, hcond⟩
    exact List.mem_map.mpr ⟨(p, sm), List.mem_filter.mpr ⟨hmem, hcond⟩, rfl⟩

theorem mem_deleteCandidates {source target : FSTree} {sn : String} {p : FPath} :
    p ∈ (syncPlan source target sn).deleteCandidates ↔
      p ∈ fileDeleteCandidates source target sn ∨ p ∈ dirDeleteCandidates source target := by
  unfold syncPlan
  exact List.mem_append

theorem deleteCandidates_source_missing {source target : FSTree} {sn : String} {p : FPath}
    (h : p ∈ (syncPlan source target sn).deleteCandidates) : source.existsAt p = false := by
  rcases mem_deleteCandidates.mp h with h2 | h2
  · exact (mem_fileDeleteCandidates.mp h2).2
  · exact (mem_dirDeleteCandidates.mp h2).2

theorem mtimeAt_find {t : FSTree} {p : FPath} {u : FSTree} (h : t.find p = some u) :
    t.mtimeAt p = some u.mtime := by
  unfold FSTree.mtimeAt
  rw [h, Option.map_some']

/-! Helper lemmas about directory grouping.  The key fact: every group
the fold builds holds exactly the candidates of its directory, in scan
order, and is nonempty. -/

theorem any_key_false {ds : List (FPath × List FPath)} {d2 : FPath}
    (h : (ds.any fun gg => gg.1 = d2) = false) : ∀ gg ∈ ds, ¬ gg.1 = d2 := by
  intro gg hgg hcontra
  have : (ds.any fun gg => gg.1 = d2) = true :=
    List.any_eq_true.mpr ⟨gg, hgg, by simp [hcontra]⟩
  rw [this] at h
  cases h

theorem addFile_key_mono (ds : List (FPath × List FPath)) (f : FPath) :
    ∀ gg ∈ ds, ∃ gg2 ∈ addFileToGroups ds f, gg2.1 = gg.1 := by
  intro gg hgg
  unfold addFileToGroups
  by_cases hany : (ds.any fun g => g.1 = dirname f) = true
  · rw [if_pos hany]
    refine ⟨if gg.1 = dirname f then (gg.1, gg.2 ++ [f]) else gg,
      List.mem_map.mpr ⟨gg, hgg, rfl⟩, ?_⟩
    by_cases hd : gg.1 = dirname f <;> simp [hd]
  · rw [if_neg hany]
    exact ⟨gg, List.mem_append.mpr (Or.inl hgg), rfl⟩

theorem addFile_key_new (ds : List (FPath × List FPath)) (f : FPath) :
    ∃ gg2 ∈ addFileToGroups ds f, gg2.1 = dirname f := by
  unfold addFileToGroups
  by_cases hany : (ds.any fun g => g.1 = dirname f) = true
  · rw [if_pos hany]
    obtain ⟨gg, hgg, hk⟩ := List.any_eq_true.mp hany
    have hk2 : gg.1 = dirname f := by simpa using hk
    exact ⟨(gg.1, gg.2 ++ [f]), List.mem_map.mpr ⟨gg, hgg, by simp [hk2]⟩, hk2⟩
  · rw [if_neg hany]
    exact ⟨(dirname f, [f]), List.mem_append.mpr (Or.inr (List.mem_singleton.mpr rfl)), rfl⟩

theorem filter_singleton_pos {f : FPath} {d : FPath} (h : dirname f = d) :
    [f].filter (fun p => dirname p = d) = [f] := by
  simp [List.filter, h]

theorem filter_singleton_neg {f : FPath} {d : FPath} (h : ¬ dirname f = d) :
    [f].filter (fun p => dirname p = d) = [] := by
  simp [List.filter, h]

theorem groups_fiber_aux : ∀ (fl seen : List FPath) (ds : List (FPath × List FPath)),
    (∀ e ∈ ds, e.2 = seen.filter (fun p => dirname p = e.1) ∧ e.2 ≠ []) →
    (∀ d2, (ds.any fun gg => gg.1 = d2) = false →
      seen.filter (fun p => dirname p = d2) = []) →
    ∀ e ∈ List.foldl addFileToGroups ds fl,
      e.2 = (seen ++ fl).filter (fun p => dirname p = e.1) ∧ e.2 ≠ []
  | [], seen, ds, hInv, _, e, he => by
    simpa using hInv e he
  | f :: fl2, seen, ds, hInv, hAbs, e, he => by
    rw [List.foldl_cons] at he
    have hInv2 : ∀ e2 ∈ addFileToGroups ds f,
        e2.2 = (seen ++ [f]).filter (fun p => dirname p = e2.1) ∧ e2.2 ≠ [] := by
      intro e2 he2
      unfold addFileToGroups at he2
      by_cases hany : (ds.any fun g => g.1 = dirname f) = true
      · rw [if_pos hany] at he2
        obtain ⟨e0, he0, heq⟩ := List.mem_map.mp he2
        obtain ⟨h1, _⟩ := hInv e0 he0
        by_cases hd : e0.1 = dirname f
        · rw [if_pos hd] at heq
          subst heq
          refine ⟨?_, by simp⟩
          show e0.2 ++ [f] = (seen ++ [f]).filter (fun p => dirname p = e0.1)
          rw [List.filter_append, ← h1, filter_singleton_pos hd.symm]
        · rw [if_neg hd] at heq
          subst heq
          obtain ⟨h1b, h2b⟩ := hInv e0 he0
          refine ⟨?_, h2b⟩
          rw [List.filter_append, ← h1b, filter_singleton_neg (fun hc => hd hc.symm),
            List.append_nil]
      · rw [if_neg hany] at he2
        have hanyF : (ds.any fun g => g.1 = dirname f) = false := by
          cases hcc : ds.any fun g => g.1 = dirname f
          · rfl
          · exact absurd hcc hany
        rcases List.mem_append.mp he2 with hold | hnew
        · have hne : ¬ e2.1 = dirname f := any_key_false hanyF e2 hold
          obtain ⟨h1, h2⟩ := hInv e2 hold
          refine ⟨?_, h2⟩
          rw [List.filter_append, ← h1, filter_singleton_neg (fun hc => hne hc.symm),
            List.append_nil]
        · rcases List.mem_singleton.mp hnew with rfl
          refine ⟨?_, by simp⟩
          show [f] = (seen ++ [f]).filter (fun p => dirname p = dirname f)
          rw [List.filter_append, hAbs (dirname f) hanyF, filter_singleton_pos rfl,
            List.nil_append]
    have hAbs2 : ∀ d2, ((addFileToGroups ds f).any fun gg => gg.1 = d2) = false →
        (seen ++ [f]).filter (fun p => dirname p = d2) = [] := by
      intro d2 h2
      have hnotold : (ds.any fun gg => gg.1 = d2) = false := by
        cases hcc : ds.any fun gg => gg.1 = d2
        · rfl
        · exfalso
          obtain ⟨gg, hgg, hk⟩ := List.any_eq_true.mp hcc
          have hk2 : gg.1 = d2 := by simpa using hk
          obtain ⟨gg2, hgg2, hkey⟩ := addFile_key_mono ds f gg hgg
          have : ((addFileToGroups ds f).any fun gg => gg.1 = d2) = true :=
            List.any_eq_true.mpr ⟨gg2, hgg2, by simp [hkey, hk2]⟩
          rw [this] at h2
          cases h2
      have hnotnew : ¬ dirname f = d2 := by
        intro hc
        obtain ⟨gg2, hgg2, hkey⟩ := addFile_key_new ds f
        have : ((addFileToGroups ds f).any fun gg => gg.1 = d2) = true :=
          List.any_eq_true.mpr ⟨gg2, hgg2, by simp [hkey, hc]⟩
        rw [this] at h2
        cases h2
      rw [List.filter_append, hAbs d2 hnotold, filter_singleton_neg hnotnew,
        List.nil_append]
    have hmain := groups_fiber_aux fl2 (seen ++ [f]) (addFileToGroups ds f) hInv2 hAbs2 e he
    rwa [List.append_assoc, List.singleton_append] at hmain

theorem groups_fiber {fl : List FPath} {d : FPath} {g : List FPath}
    (hg : (d, g) ∈ group_files_by_directory fl) :
    g = fl.filter (fun p => dirname p = d) ∧ g ≠ [] := by
  have h := groups_fiber_aux fl [] []
    (by intro e he; simp at he) (by intro d2 _; simp) (d, g) hg
  simpa using h

theorem flatMap_infix {α β : Type} (f : α → List β) :
    ∀ (l : List α) (a : α), a ∈ l → ∃ pre post, l.flatMap f = pre ++ f a ++ post
  | [], a, h => absurd h (List.not_mem_nil a)
  | b :: rest, a, h => by
    rcases List.mem_cons.mp h with rfl | h2
    · exact ⟨[], rest.flatMap f, by simp [List.flatMap_cons]⟩
    · obtain ⟨pre, post, hp⟩ := flatMap_infix f rest a h2
      exact ⟨f b ++ pre, post, by simp [List.flatMap_cons, hp, List.append_assoc]⟩

theorem deletionSummary_length (fl : List FPath) :
    (deletionSummary fl).length =
      ((group_files_by_directory fl).map fun g2 =>
        if 20 < g2.2.length then 1 else g2.2.length).sum := by
  unfold deletionSummary
  rw [List.length_flatMap]
  congr 1
  apply List.map_congr_left
  intro g2 _
  by_cases h : 20 < g2.2.length <;> simp [h]

theorem overwriteSummary_length (fl : List FPath) :
    (overwriteSummary fl).length =
      ((group_files_by_directory fl).map fun g2 =>
        if 20 < g2.2.length then 1 else g2.2.length).sum := by
  unfold overwriteSummary
  rw [List.length_flatMap]
  congr 1
  apply List.map_congr_left
  intro g2 _
  by_cases h : 20 < g2.2.length <;> simp [h]

/-! The claims. -/

/-- C1, counterexample to the claim as stated: the pair `a.txt` has a
target copy 10 seconds older than the source copy, far outside the
tolerance, yet it is not an overwrite candidate — the claim requires it
to be one. -/
theorem C1_older_target_not_overwrite_candidate :
    cxTarget1.mtimeAt ["a.txt"] = some 0 ∧ cxSource1.mtimeAt ["a.txt"] = some 10 ∧
    TIME_TOLERANCE < ratAbs (0 - 10) ∧ (0 : ℚ) < 10 ∧
    ["a.txt"] ∉ (syncPlan cxSource1 cxTarget1 "sync.py").overwriteCandidates :=
  ⟨by decide, by decide, by decide, by decide, by decide⟩

/-- C1 (amended): for a scanned target file whose source counterpart
exists with the mtimes more than the tolerance apart, the file is an
overwrite candidate iff the target mtime is strictly GREATER than the
source mtime; a strictly older target file is never an overwrite
candidate. -/
theorem C1_overwrite_iff_target_newer (source target : FSTree) (sn : String) (p : FPath)
    (tm sm : ℚ) (hwft : target.wf = true) (hw : (p, tm) ∈ target.walkFiles sn)
    (hsm : source.mtimeAt p = some sm) (hfar : TIME_TOLERANCE < ratAbs (tm - sm)) :
    p ∈ (syncPlan source target sn).overwriteCandidates ↔ sm < tm := by
  constructor
  · intro h
    obtain ⟨tm2, hw2, hcond⟩ := mem_overwriteCandidates.mp h
    have he : tm2 = tm := walk_mtime_unique hwft hw2 hw
    subst he
    obtain ⟨sm2, hsm2, _, hlt⟩ := owDecision_true_iff.mp hcond
    rw [hsm] at hsm2
    injection hsm2 with he2
    rw [he2]
    exact hlt
  · intro hlt
    exact mem_overwriteCandidates.mpr ⟨tm, hw, owDecision_true_iff.mpr ⟨sm, hsm, hfar, hlt⟩⟩

/-- C1 witness: a target file 10 seconds newer than its source
counterpart is an overwrite candidate. -/
theorem C1_overwrite_iff_target_newer_wit :
    cxSource1.wf = true ∧ ((["a.txt"], (10 : ℚ)) ∈ cxSource1.walkFiles "sync.py") ∧
    cxTarget1.mtimeAt ["a.txt"] = some 0 ∧ TIME_TOLERANCE < ratAbs (10 - 0) ∧
    (["a.txt"] ∈ (syncPlan cxTarget1 cxSource1 "sync.py").overwriteCandidates ↔ (0 : ℚ) < 10) :=
  ⟨by decide, by decide, by decide, by decide,
    C1_overwrite_iff_target_newer cxTarget1 cxSource1 "sync.py" ["a.txt"] 10 0
      (by decide) (by decide) (by decide) (by decide)⟩

/-- C2, counterexample to the claim as stated: the pair `a.txt` differs
by 1 second, within the tolerance, yet it is a copy candidate because the
copy test applies no tolerance; re-running the pure planner on the
unchanged trees reproduces the same nonempty copy set. -/
theorem C2_within_tolerance_still_copied :
    cxTarget1.mtimeAt ["a.txt"] = some 0 ∧ cxSource2.mtimeAt ["a.txt"] = some 1 ∧
    ratAbs (0 - 1) ≤ TIME_TOLERANCE ∧
    ["a.txt"] ∈ (syncPlan cxSource2 cxTarget1 "sync.py").copyCandidates ∧
    (syncPlan cxSource2 cxTarget1 "sync.py").copyCandidates ≠ [] :=
  ⟨by decide, by decide, by decide, by decide, by decide⟩

/-- C2 (amended): a target/source file pair whose mtimes differ by at
most the tolerance is never an overwrite candidate, but it is a copy
candidate exactly when the source mtime strictly exceeds the target
mtime (the copy test applies no tolerance); the planner is a pure
function of the trees, so a second run with no filesystem change yields
the same — not necessarily empty — candidate sets. -/
theorem C2_tolerance_band (source target : FSTree) (sn : String) (p : FPath) (sm tm : ℚ)
    (hwfs : source.wf = true) (hwft : target.wf = true)
    (hw : (p, sm) ∈ source.walkFiles sn) (htm : target.mtimeAt p = some tm)
    (hnear : ratAbs (tm - sm) ≤ TIME_TOLERANCE) :
    p ∉ (syncPlan source target sn).overwriteCandidates ∧
      (p ∈ (syncPlan source target sn).copyCandidates ↔ tm < sm) := by
  have hfindS : source.find p = some (FSTree.file sm) := walkFiles_find source hwfs hw
  constructor
  · intro h
    obtain ⟨tm2, hw2, hcond⟩ := mem_overwriteCandidates.mp h
    have hfindT := walkFiles_find target hwft hw2
    have he1 : tm2 = tm := Option.some_inj.mp ((mtimeAt_find hfindT).symm.trans htm)
    subst he1
    obtain ⟨sm2, hsm2, hfar, _⟩ := owDecision_true_iff.mp hcond
    have he2 : sm2 = sm := Option.some_inj.mp (hsm2.symm.trans (mtimeAt_find hfindS))
    subst he2
    exact absurd hnear (not_le.mpr hfar)
  · constructor
    · intro h
      obtain ⟨sm2, hw2, hcond⟩ := mem_copyCandidates.mp h
      have he : sm2 = sm := walk_mtime_unique hwfs hw2 hw
      subst he
      rcases copyCondition_true_iff.mp hcond with hfalse | ⟨tm2, htm2, hlt⟩
      · exfalso
        rw [existsAt_false_iff, ← mtimeAt_none_iff, htm] at hfalse
        cases hfalse
      · rw [htm] at htm2
        injection htm2 with he2
        rw [he2]
        exact hlt
    · intro hlt
      exact mem_copyCandidates.mpr ⟨sm, hw, copyCondition_true_iff.mpr (Or.inr ⟨tm, htm, hlt⟩)⟩

/-- C2 witness: a source file 1 second newer, inside the tolerance, is
not overwritten but is copied. -/
theorem C2_tolerance_band_wit :
    cxSource2.wf = true ∧ cxTarget1.wf = true ∧
    ((["a.txt"], (1 : ℚ)) ∈ cxSource2.walkFiles "sync.py") ∧
    cxTarget1.mtimeAt ["a.txt"] = some 0 ∧ ratAbs (0 - 1) ≤ TIME_TOLERANCE ∧
    (["a.txt"] ∉ (syncPlan cxSource2 cxTarget1 "sync.py").overwriteCandidates ∧
      (["a.txt"] ∈ (syncPlan cxSource2 cxTarget1 "sync.py").copyCandidates ↔ (0 : ℚ) < 1)) :=
  ⟨by decide, by decide, by decide, by decide, by decide,
    C2_tolerance_band cxSource2 cxTarget1 "sync.py" ["a.txt"] 1 0
      (by decide) (by decide) (by decide) (by decide) (by decide)⟩

/-- C3: the claim is what the spec prescribes and what the top-down
walks do, but the bottom-up walk's exclusion filter is ineffective
(`dirs[:]` pruning has no effect with `topdown=False`), so a
subdirectory inside an excluded directory does become a delete
candidate; the excluded directory itself is still protected.  Evaluated
at the failing input: a target holding `System Volume Information/sub`
against an empty source. -/
theorem C3_excluded_descendant_is_delete_candidate :
    (["System Volume Information", "sub"]
        ∈ (syncPlan cxEmpty cxTarget3 "sync.py").deleteCandidates) ∧
    (["System Volume Information"]
        ∉ (syncPlan cxEmpty cxTarget3 "sync.py").deleteCandidates) :=
  ⟨by decide, by decide⟩

/-- C4: a scanned target entry (file of the first walk or directory of
the bottom-up walk) is a delete candidate iff the corresponding
source-side path does not exist, and a scanned target file with no
source counterpart is neither an overwrite nor a copy candidate. -/
theorem C4_delete_iff_source_missing (source target : FSTree) (sn : String)
    (hwfs : source.wf = true) :
    (∀ p m, (p, m) ∈ target.walkFiles sn →
        (p ∈ (syncPlan source target sn).deleteCandidates ↔ source.existsAt p = false)) ∧
    (∀ p, p ∈ target.dirsChecked →
        (p ∈ (syncPlan source target sn).deleteCandidates ↔ source.existsAt p = false)) ∧
    (∀ p m, (p, m) ∈ target.walkFiles sn → source.existsAt p = false →
        p ∉ (syncPlan source target sn).overwriteCandidates ∧
          p ∉ (syncPlan source target sn).copyCandidates) := by
  refine ⟨?_, ?_, ?_⟩
  · intro p m hw
    constructor
    · exact deleteCandidates_source_missing
    · intro hfalse
      exact mem_deleteCandidates.mpr (Or.inl (mem_fileDeleteCandidates.mpr ⟨⟨m, hw⟩, hfalse⟩))
  · intro p hd
    constructor
    · exact deleteCandidates_source_missing
    · intro hfalse
      exact mem_deleteCandidates.mpr (Or.inr (mem_dirDeleteCandidates.mpr ⟨hd, hfalse⟩))
  · intro p m _ hfalse
    constructor
    · intro h
      obtain ⟨tm, _, hcond⟩ := mem_overwriteCandidates.mp h
      obtain ⟨sm, hsm, _⟩ := owDecision_true_iff.mp hcond
      obtain ⟨u, hu, _⟩ := mtimeAt_some_iff.mp hsm
      rw [existsAt_false_iff.mp hfalse] at hu
      exact Option.noConfusion hu
    · intro h
      obtain ⟨sm, hw2, _⟩ := mem_copyCandidates.mp h
      have := walkFiles_find source hwfs hw2
      rw [existsAt_false_iff.mp hfalse] at this
      exact Option.noConfusion this

/-- C4 witness: the orphan target file `a.txt` of a concrete pair of
trees is a delete candidate and nothing else. -/
theorem C4_delete_iff_source_missing_wit :
    cxEmpty.wf = true ∧
    ((["a.txt"], (0 : ℚ)) ∈ cxTarget1.walkFiles "sync.py") ∧
    cxEmpty.existsAt ["a.txt"] = false ∧
    (["a.txt"] ∈ (syncPlan cxEmpty cxTarget1 "sync.py").deleteCandidates ↔
      cxEmpty.existsAt ["a.txt"] = false) ∧
    (["a.txt"] ∉ (syncPlan cxEmpty cxTarget1 "sync.py").overwriteCandidates ∧
      ["a.txt"] ∉ (syncPlan cxEmpty cxTarget1 "sync.py").copyCandidates) :=
  ⟨by decide, by decide, by decide,
    (C4_delete_iff_source_missing cxEmpty cxTarget1 "sync.py" (by decide)).1 ["a.txt"] 0
      (by decide),
    (C4_delete_iff_source_missing cxEmpty cxTarget1 "sync.py" (by decide)).2.2 ["a.txt"] 0
      (by decide) (by decide)⟩

/-- C5: a scanned source file is a copy candidate iff the target-side
path does not exist or the source mtime strictly exceeds the target-side
mtime; in particular a source file with no target counterpart is always
a copy candidate. -/
theorem C5_copy_iff (source target : FSTree) (sn : String) (p : FPath) (sm : ℚ)
    (hwfs : source.wf = true) (hw : (p, sm) ∈ source.walkFiles sn) :
    p ∈ (syncPlan source target sn).copyCandidates ↔
      (target.existsAt p = false ∨ ∃ tm, target.mtimeAt p = some tm ∧ tm < sm) := by
  constructor
  · intro h
    obtain ⟨sm2, hw2, hcond⟩ := mem_copyCandidates.mp h
    have he : sm2 = sm := walk_mtime_unique hwfs hw2 hw
    subst he
    exact copyCondition_true_iff.mp hcond
  · intro h
    exact mem_copyCandidates.mpr ⟨sm, hw, copyCondition_true_iff.mpr h⟩

/-- C5 witness: a source file with no target counterpart is a copy
candidate. -/
theorem C5_copy_iff_wit :
    cxSource1.wf = true ∧ ((["a.txt"], (10 : ℚ)) ∈ cxSource1.walkFiles "sync.py") ∧
    cxEmpty.existsAt ["a.txt"] = false ∧
    (["a.txt"] ∈ (syncPlan cxSource1 cxEmpty "sync.py").copyCandidates ↔
      (cxEmpty.existsAt ["a.txt"] = false ∨
        ∃ tm, cxEmpty.mtimeAt ["a.txt"] = some tm ∧ tm < 10)) :=
  ⟨by decide, by decide, by decide,
    C5_copy_iff cxSource1 cxEmpty "sync.py" ["a.txt"] 10 (by decide) (by decide)⟩

/-- C9: for every containing-directory group of an arbitrary candidate
list, the group is nonempty and holds exactly the candidates of its
directory in scan order, and the summary contains, contiguously in
place, one collapsed line for that group when it holds more than 20
entries and one line per entry otherwise; consequently the total
summary length is the sum over all groups of (1 if the group exceeds
20 entries else its size), so a group of 21 contributes one line and a
group of 20 contributes 20 lines.  Stated for deletion and overwrite
summaries alike. -/
theorem C9_group_collapse (fl : List FPath) (d : FPath) (g : List FPath)
    (hg : (d, g) ∈ group_files_by_directory fl) :
    g ≠ [] ∧
    g = fl.filter (fun p => dirname p = d) ∧
    (∃ pre post, deletionSummary fl =
        pre ++ (if 20 < g.length then ["Delete 20+ files in directory: " ++ pathStr d]
          else g.map fun f => "Delete file: " ++ pathStr f) ++ post) ∧
    (∃ pre post, overwriteSummary fl =
        pre ++ (if 20 < g.length then ["Overwrite 20+ files in directory: " ++ pathStr d]
          else g.map fun f => "Overwrite file: " ++ pathStr f) ++ post) ∧
    (deletionSummary fl).length =
      ((group_files_by_directory fl).map fun g2 =>
        if 20 < g2.2.length then 1 else g2.2.length).sum ∧
    (overwriteSummary fl).length =
      ((group_files_by_directory fl).map fun g2 =>
        if 20 < g2.2.length then 1 else g2.2.length).sum := by
  obtain ⟨hfib, hne⟩ := groups_fiber hg
  refine ⟨hne, hfib, ?_, ?_, deletionSummary_length fl, overwriteSummary_length fl⟩
  · obtain ⟨pre, post, hp⟩ := flatMap_infix
      (fun g2 : FPath × List FPath =>
        if 20 < g2.2.length then ["Delete 20+ files in directory: " ++ pathStr g2.1]
        else g2.2.map fun f => "Delete file: " ++ pathStr f)
      (group_files_by_directory fl) (d, g) hg
    exact ⟨pre, post, hp⟩
  · obtain ⟨pre, post, hp⟩ := flatMap_infix
      (fun g2 : FPath × List FPath =>
        if 20 < g2.2.length then ["Overwrite 20+ files in directory: " ++ pathStr g2.1]
        else g2.2.map fun f => "Overwrite file: " ++ pathStr f)
      (group_files_by_directory fl) (d, g) hg
    exact ⟨pre, post, hp⟩

/-- C9 witness: a multi-group candidate list with 21 entries in one
directory and 20 in another; the 21-group renders collapsed and the
20-group renders one line per entry, both inside the same summary. -/
theorem C9_group_collapse_wit :
    ((["d"], List.replicate 21 (["d", "f"] : FPath)) ∈ group_files_by_directory cxNine ∧
      (∃ pre post, deletionSummary cxNine =
        pre ++ (if 20 < (List.replicate 21 (["d", "f"] : FPath)).length
          then ["Delete 20+ files in directory: " ++ pathStr ["d"]]
          else (List.replicate 21 (["d", "f"] : FPath)).map
            fun f => "Delete file: " ++ pathStr f) ++ post)) ∧
    ((["e"], List.replicate 20 (["e", "g"] : FPath)) ∈ group_files_by_directory cxNine ∧
      (∃ pre post, overwriteSummary cxNine =
        pre ++ (if 20 < (List.replicate 20 (["e", "g"] : FPath)).length
          then ["Overwrite 20+ files in directory: " ++ pathStr ["e"]]
          else (List.replicate 20 (["e", "g"] : FPath)).map
            fun f => "Overwrite file: " ++ pathStr f) ++ post)) ∧
    (deletionSummary cxNine).length = 21 :=
  ⟨⟨by decide,
      (C9_group_collapse cxNine ["d"] (List.replicate 21 ["d", "f"]) (by decide)).2.2.1⟩,
    ⟨by decide,
      (C9_group_collapse cxNine ["e"] (List.replicate 20 ["e", "g"]) (by decide)).2.2.2.1⟩,
    by decide⟩

/-- C10: the self-exclusion by filename applies only to file entries: a
target directory named like the running script is still examined by the
bottom-up walk, and is a delete candidate whenever its source-side path
does not exist (provided its name is not in the exclusion list, which
holds for the actual script name). -/
theorem C10_script_named_dir_deleted (source target : FSTree) (sn : String) (q : FPath)
    (hsn : EXCLUDE_DIRS.contains sn = false)
    (hdir : target.isDirAt (q ++ [sn]) = true)
    (hmiss : source.existsAt (q ++ [sn]) = false) :
    (q ++ [sn]) ∈ (syncPlan source target sn).deleteCandidates := by
  have hfind : ∃ dm dcs, target.find (q ++ [sn]) = some (FSTree.dir dm dcs) := by
    unfold FSTree.isDirAt at hdir
    cases hf : target.find (q ++ [sn]) with
    | none => rw [hf] at hdir; cases hdir
    | some u =>
      rw [hf] at hdir
      cases u with
      | file m => simp [FSTree.isDir] at hdir
      | dir dm dcs => exact ⟨dm, dcs, rfl⟩
  obtain ⟨dm, dcs, hf⟩ := hfind
  have hmem := dirsChecked_of_find q target hf hsn
  exact mem_deleteCandidates.mpr (Or.inr (mem_dirDeleteCandidates.mpr ⟨hmem, hmiss⟩))

/-- C10 witness: a target directory named `sync.py` with no source
counterpart is a delete candidate. -/
theorem C10_script_named_dir_deleted_wit :
    EXCLUDE_DIRS.contains "sync.py" = false ∧
    cxTarget10.isDirAt ([] ++ ["sync.py"]) = true ∧
    cxEmpty.existsAt ([] ++ ["sync.py"]) = false ∧
    ([] ++ ["sync.py"]) ∈ (syncPlan cxEmpty cxTarget10 "sync.py").deleteCandidates :=
  ⟨by decide, by decide, by decide,
    C10_script_named_dir_deleted cxEmpty cxTarget10 "sync.py" []
      (by decide) (by decide) (by decide)⟩

theorem deleteCandidates_target_found {source target : FSTree} {sn : String} {p : FPath}
    (hwft : target.wf = true)
    (h : p ∈ (syncPlan source target sn).deleteCandidates) :
    (target.find p).isSome = true := by
  rcases mem_deleteCandidates.mp h with h2 | h2
  · obtain ⟨⟨m, hw⟩, _⟩ := mem_fileDeleteCandidates.mp h2
    rw [walkFiles_find target hwft hw]
    rfl
  · obtain ⟨hdc, _⟩ := mem_dirDeleteCandidates.mp h2
    obtain ⟨dm, dcs, hf⟩ := dirsChecked_find target hwft hdc
    rw [hf]
    rfl

/-- C6: in the delete candidate list — which the destructive phase
processes front to back — an entry strictly below a directory candidate
always occurs before that directory: all file candidates (first walk)
precede all directory candidates (bottom-up walk), and the bottom-up
walk lists descendant directories before their ancestors. -/
theorem C6_descendant_deleted_before_ancestor (source target : FSTree) (sn : String)
    (d x : FPath) (hwft : target.wf = true)
    (hd : d ∈ (syncPlan source target sn).deleteCandidates)
    (hx : x ∈ (syncPlan source target sn).deleteCandidates)
    (hne : d ≠ x) (hpre : d.isPrefixOf x = true) :
    before (syncPlan source target sn).deleteCandidates x d := by
  have hu : under d x := under_of_isPrefixOf hpre
  obtain ⟨r, rfl⟩ := hu
  have hrne : r ≠ [] := by
    rintro rfl
    simp at hne
  have hdnotfile : d ∉ fileDeleteCandidates source target sn := by
    intro hdf
    obtain ⟨⟨m, hw⟩, _⟩ := mem_fileDeleteCandidates.mp hdf
    have hfind := walkFiles_find target hwft hw
    have hxs := deleteCandidates_target_found hwft hx
    rw [find_append, hfind] at hxs
    cases r with
    | nil => exact absurd rfl hrne
    | cons y r2 => simp [FSTree.find] at hxs
  have hddir : d ∈ dirDeleteCandidates source target :=
    (mem_deleteCandidates.mp hd).resolve_left hdnotfile
  rcases mem_deleteCandidates.mp hx with hxf | hxd
  · exact before_append_of_mem hxf hddir
  · have hp : List.Pairwise (fun a b => under a b → a = b)
        (dirDeleteCandidates source target) :=
      (dirsChecked_pairwise target hwft).sublist (List.filter_sublist _)
    exact before_append_right
      (pairwise_before hp hddir hxd hne ⟨r, rfl⟩)

/-- C6 witness: with the nested orphan tree, the file and subdirectory
under the directory candidate come before it in the delete list. -/
theorem C6_descendant_deleted_before_ancestor_wit :
    cxTarget6.wf = true ∧
    (["a"] ∈ (syncPlan cxEmpty cxTarget6 "sync.py").deleteCandidates) ∧
    (["a", "b"] ∈ (syncPlan cxEmpty cxTarget6 "sync.py").deleteCandidates) ∧
    (["a"] : FPath) ≠ ["a", "b"] ∧ (["a"] : FPath).isPrefixOf ["a", "b"] = true ∧
    before (syncPlan cxEmpty cxTarget6 "sync.py").deleteCandidates ["a", "b"] ["a"] :=
  ⟨by decide, by decide, by decide, by decide, by decide,
    C6_descendant_deleted_before_ancestor cxEmpty cxTarget6 "sync.py" ["a"] ["a", "b"]
      (by decide) (by decide) (by decide) (by decide) (by decide)⟩

/-! Helper lemmas about the execution loops. -/

theorem runPhase_shift (op : FSTree → FPath → Except String (FSTree × String)) (pre : String) :
    ∀ (l : List FPath) (fs : FSTree) (lg er : List String),
    runPhase op pre ⟨fs, lg, er⟩ l =
      ⟨(runPhase op pre ⟨fs, [], []⟩ l).fs,
        lg ++ (runPhase op pre ⟨fs, [], []⟩ l).log,
        er ++ (runPhase op pre ⟨fs, [], []⟩ l).errors⟩
  | [], fs, lg, er => by simp [runPhase]
  | p :: rest, fs, lg, er => by
    cases hop : op fs p with
    | ok r =>
      rw [runPhase, runPhase]
      simp only [hop]
      rw [runPhase_shift op pre rest r.1 (lg ++ [r.2]) er]
      simp only [List.nil_append]
      rw [runPhase_shift op pre rest r.1 [r.2] []]
      simp
    | error e =>
      rw [runPhase, runPhase]
      simp only [hop]
      rw [runPhase_shift op pre rest fs lg (er ++ [pre ++ pathStr p ++ ": " ++ e])]
      simp only [List.nil_append]
      rw [runPhase_shift op pre rest fs [] [pre ++ pathStr p ++ ": " ++ e]]
      simp

theorem runPhase_count (op : FSTree → FPath → Except String (FSTree × String)) (pre : String) :
    ∀ (l : List FPath) (acc : ExecResult),
    (runPhase op pre acc l).log.length + (runPhase op pre acc l).errors.length =
      acc.log.length + acc.errors.length + l.length
  | [], acc => by simp [runPhase]
  | p :: rest, acc => by
    cases hop : op acc.fs p with
    | ok r =>
      rw [runPhase]
      simp only [hop]
      rw [runPhase_count op pre rest ⟨r.1, acc.log ++ [r.2], acc.errors⟩]
      simp
      omega
    | error e =>
      rw [runPhase]
      simp only [hop]
      rw [runPhase_count op pre rest
        ⟨acc.fs, acc.log, acc.errors ++ [pre ++ pathStr p ++ ": " ++ e]⟩]
      simp
      omega

theorem walkFiles_ne_nil {sn : String} {t : FSTree} {p : FPath} {m : ℚ}
    (h : (p, m) ∈ t.walkFiles sn) : p ≠ [] := by
  cases t with
  | file fm => rw [FSTree.walkFiles] at h; simp at h
  | dir dm cs =>
    rw [FSTree.walkFiles] at h
    rcases List.mem_append.mp h with hl | hr
    · obtain ⟨n, rfl, _⟩ := filesOf_mem hl
      simp
    · obtain ⟨n, q, t2, rfl, _⟩ := subWalks_mem hr
      simp

theorem protected_of_delete {source target : FSTree} {sn : String} {q : FPath}
    (hwft : target.wf = true)
    (h : q ∈ (syncPlan source target sn).deleteCandidates) :
    protectedFacts source target q :=
  ⟨deleteCandidates_target_found hwft h,
    Or.inl (existsAt_false_iff.mp (deleteCandidates_source_missing h))⟩

theorem protected_of_overwrite {source target : FSTree} {sn : String} {q : FPath}
    (hwft : target.wf = true)
    (h : q ∈ (syncPlan source target sn).overwriteCandidates) :
    protectedFacts source target q := by
  obtain ⟨tm, hw, hcond⟩ := mem_overwriteCandidates.mp h
  have hft := walkFiles_find target hwft hw
  obtain ⟨sm, hsm, _, hlt⟩ := owDecision_true_iff.mp hcond
  obtain ⟨u, hu, hmu⟩ := mtimeAt_some_iff.mp hsm
  refine ⟨by rw [hft]; rfl, Or.inr ⟨u, tm, hu, hft, by rw [hmu]; exact hlt⟩⟩

theorem copyCandidates_facts {source target : FSTree} {sn : String} {p : FPath}
    (hwfs : source.wf = true)
    (h : p ∈ (syncPlan source target sn).copyCandidates) :
    p ≠ [] ∧ ∃ sm, source.find p = some (FSTree.file sm) ∧ copyCondition target p sm = true := by
  obtain ⟨sm, hw, hcond⟩ := mem_copyCandidates.mp h
  exact ⟨walkFiles_ne_nil hw, sm, walkFiles_find source hwfs hw, hcond⟩

theorem exceptMap_ok {α β γ : Type} {f : β → γ} {x : Except α β} {c : γ}
    (h : x.map f = Except.ok c) : ∃ b, x = Except.ok b ∧ c = f b := by
  cases x with
  | error e => simp [Except.map] at h
  | ok b =>
    refine ⟨b, rfl, ?_⟩
    simp only [Except.map] at h
    injection h with h2
    exact h2.symm

/-! Installing a file at one path does not disturb any path that is
neither above nor below it. -/

mutual
theorem setFile_find_other : ∀ (t : FSTree) (p : FPath) (m : ℚ) (t2 : FSTree) (q : FPath),
    setFile t p m = Except.ok t2 → ¬ under p q → ¬ under q p → t2.find q = t.find q
  | t, [], m, t2, q, hok, _, _ => by
    rw [setFile] at hok
    exact Except.noConfusion hok
  | FSTree.file fm, y :: p2, m, t2, q, hok, _, _ => by
    rw [setFile] at hok
    exact Except.noConfusion hok
  | FSTree.dir dm cs, n :: p2, m, t2, q, hok, hpq, hqp => by
    rw [setFile] at hok
    obtain ⟨cs2, hsi, rfl⟩ := exceptMap_ok hok
    cases q with
    | nil => exact absurd (under_nil _) hqp
    | cons k q2 =>
      rw [FSTree.find, FSTree.find]
      exact setFileIn_find_other cs n p2 m cs2 k q2 hsi hpq hqp

theorem setFileIn_find_other : ∀ (cs : List (String × FSTree)) (n : String) (p2 : FPath)
    (m : ℚ) (cs2 : List (String × FSTree)) (k : String) (q2 : FPath),
    setFileIn cs n p2 m = Except.ok cs2 →
    ¬ under (n :: p2) (k :: q2) → ¬ under (k :: q2) (n :: p2) →
    findIn cs2 k q2 = findIn cs k q2
  | [], n, [], m, cs2, k, q2, hok, hpq, hqp => by
    rw [setFileIn] at hok
    injection hok with hok2
    subst hok2
    by_cases hnk : n = k
    · subst hnk
      cases q2 with
      | nil => exact absurd (under_refl _) hqp
      | cons y q3 => simp [findIn, FSTree.find]
    · simp [findIn, hnk]
  | [], n, y :: p3, m, cs2, k, q2, hok, _, _ => by
    exact Except.noConfusion hok
  | (j, t) :: rest, n, p2, m, cs2, k, q2, hok, hpq, hqp => by
    cases p2 with
    | nil =>
      cases t with
      | dir em ecs =>
        rw [setFileIn] at hok
        by_cases hjn : j = n
        · rw [if_pos hjn] at hok
          exact Except.noConfusion hok
        · rw [if_neg hjn] at hok
          obtain ⟨rest2, hsi, rfl⟩ := exceptMap_ok hok
          by_cases hjk : j = k
          · rw [findIn, if_pos hjk, findIn, if_pos hjk]
          · rw [findIn, if_neg hjk, findIn, if_neg hjk]
            exact setFileIn_find_other rest n [] m rest2 k q2 hsi hpq hqp
      | file fm =>
        rw [setFileIn] at hok
        by_cases hjn : j = n
        · rw [if_pos hjn] at hok
          injection hok with hok2
          subst hok2
          by_cases hjk : j = k
          · cases q2 with
            | nil =>
              subst hjn
              subst hjk
              exact absurd (under_refl _) hqp
            | cons y q3 =>
              rw [findIn, if_pos hjk, findIn, if_pos hjk, FSTree.find, FSTree.find]
          · rw [findIn, if_neg hjk, findIn, if_neg hjk]
        · rw [if_neg hjn] at hok
          obtain ⟨rest2, hsi, rfl⟩ := exceptMap_ok hok
          by_cases hjk : j = k
          · rw [findIn, if_pos hjk, findIn, if_pos hjk]
          · rw [findIn, if_neg hjk, findIn, if_neg hjk]
            exact setFileIn_find_other rest n [] m rest2 k q2 hsi hpq hqp
    | cons y p3 =>
      rw [setFileIn] at hok
      by_cases hjn : j = n
      · rw [if_pos hjn] at hok
        obtain ⟨t3, hsf, rfl⟩ := exceptMap_ok hok
        by_cases hjk : j = k
        · rw [findIn, if_pos hjk, findIn, if_pos hjk]
          subst hjn
          subst hjk
          refine setFile_find_other t (y :: p3) m t3 q2 hsf ?_ ?_
          · intro hu
            exact hpq (under_cons.mpr ⟨rfl, hu⟩)
          · intro hu
            exact hqp (under_cons.mpr ⟨rfl, hu⟩)
        · rw [findIn, if_neg hjk, findIn, if_neg hjk]
      · rw [if_neg hjn] at hok
        obtain ⟨rest2, hsi, rfl⟩ := exceptMap_ok hok
        by_cases hjk : j = k
        · rw [findIn, if_pos hjk, findIn, if_pos hjk]
        · rw [findIn, if_neg hjk, findIn, if_neg hjk]
          exact setFileIn_find_other rest n (y :: p3) m rest2 k q2 hsi hpq hqp
end

theorem findIn_cons_self (t : FSTree) (rest : List (String × FSTree)) (n : String)
    (q : FPath) : findIn ((n, t) :: rest) n q = t.find q := by
  rw [findIn, if_pos rfl]

theorem mkdirChain_find_other : ∀ (d q : FPath), ¬ under d q → ¬ under q d →
    (mkdirChain d).find q = none
  | d, [], _, hqd => absurd (under_nil d) hqd
  | [], y :: q2, hdq, _ => absurd (under_nil (y :: q2)) hdq
  | z :: d2, y :: q2, hdq, hqd => by
    rw [mkdirChain, FSTree.find, findIn]
    by_cases hzy : z = y
    · subst hzy
      rw [if_pos rfl]
      refine mkdirChain_find_other d2 q2 ?_ ?_
      · intro hu
        exact hdq (under_cons.mpr ⟨rfl, hu⟩)
      · intro hu
        exact hqd (under_cons.mpr ⟨rfl, hu⟩)
    · rw [if_neg hzy, findIn]

/-! Creating missing directories along one path does not disturb any
path that is neither above nor below it. -/

mutual
theorem makedirs_find_other : ∀ (t : FSTree) (d : FPath) (t2 : FSTree) (q : FPath),
    makedirs t d = Except.ok t2 → ¬ under d q → ¬ under q d → t2.find q = t.find q
  | t, [], t2, q, hok, _, _ => by
    rw [makedirs] at hok
    injection hok with hok2
    subst hok2
    rfl
  | FSTree.file fm, y :: d2, t2, q, hok, _, _ => by
    rw [makedirs] at hok
    exact Except.noConfusion hok
  | FSTree.dir dm cs, n :: d2, t2, q, hok, hdq, hqd => by
    rw [makedirs] at hok
    obtain ⟨cs2, hmi, rfl⟩ := exceptMap_ok hok
    cases q with
    | nil => exact absurd (under_nil _) hqd
    | cons k q2 =>
      rw [FSTree.find, FSTree.find]
      exact makedirsIn_find_other cs n d2 cs2 k q2 hmi hdq hqd

theorem makedirsIn_find_other : ∀ (cs : List (String × FSTree)) (n : String) (d2 : FPath)
    (cs2 : List (String × FSTree)) (k : String) (q2 : FPath),
    makedirsIn cs n d2 = Except.ok cs2 →
    ¬ under (n :: d2) (k :: q2) → ¬ under (k :: q2) (n :: d2) →
    findIn cs2 k q2 = findIn cs k q2
  | [], n, d2, cs2, k, q2, hok, hdq, hqd => by
    rw [makedirsIn] at hok
    injection hok with hok2
    subst hok2
    by_cases hnk : n = k
    · subst hnk
      rw [findIn_cons_self, findIn]
      refine mkdirChain_find_other d2 q2 ?_ ?_
      · intro hu
        exact hdq (under_cons.mpr ⟨rfl, hu⟩)
      · intro hu
        exact hqd (under_cons.mpr ⟨rfl, hu⟩)
    · rw [findIn, findIn, if_neg hnk, findIn]
  | (j, t) :: rest, n, d2, cs2, k, q2, hok, hdq, hqd => by
    rw [makedirsIn] at hok
    by_cases hjn : j = n
    · rw [if_pos hjn] at hok
      obtain ⟨t3, hm, rfl⟩ := exceptMap_ok hok
      by_cases hjk : j = k
      · rw [findIn, if_pos hjk, findIn, if_pos hjk]
        subst hjn
        subst hjk
        refine makedirs_find_other t d2 t3 q2 hm ?_ ?_
        · intro hu
          exact hdq (under_cons.mpr ⟨rfl, hu⟩)
        · intro hu
          exact hqd (under_cons.mpr ⟨rfl, hu⟩)
      · rw [findIn, if_neg hjk, findIn, if_neg hjk]
    · rw [if_neg hjn] at hok
      obtain ⟨rest2, hm, rfl⟩ := exceptMap_ok hok
      by_cases hjk : j = k
      · rw [findIn, if_pos hjk, findIn, if_pos hjk]
      · rw [findIn, if_neg hjk, findIn, if_neg hjk]
        exact makedirsIn_find_other rest n d2 rest2 k q2 hm hdq hqd
end

theorem setFileIn_cons_ne (j : String) (t : FSTree) (rest : List (String × FSTree))
    (n : String) (p : FPath) (m : ℚ) (h : ¬ j = n) :
    setFileIn ((j, t) :: rest) n p m =
      (setFileIn rest n p m).map fun rest2 => (j, t) :: rest2 := by
  cases p with
  | nil =>
    cases t with
    | file fm => rw [setFileIn, if_neg h]
    | dir dm dcs => rw [setFileIn, if_neg h]
  | cons y p3 => rw [setFileIn, if_neg h]

/-! Installing a file at a path that is an existing directory, or whose
chain crosses an existing file, fails. -/

mutual
theorem setFile_err_dir : ∀ (t : FSTree) (p : FPath) (m : ℚ) {em : ℚ}
    {ecs : List (String × FSTree)}, t.find p = some (FSTree.dir em ecs) →
    ∃ e, setFile t p m = Except.error e
  | t, [], m, _, _, _ => ⟨"IsADirectoryError", by rw [setFile]⟩
  | FSTree.file fm, y :: p2, m, _, _, hf => by
    rw [FSTree.find] at hf
    exact Option.noConfusion hf
  | FSTree.dir dm cs, y :: p2, m, _, _, hf => by
    rw [FSTree.find] at hf
    obtain ⟨e, he⟩ := setFileIn_err_dir cs y p2 m hf
    exact ⟨e, by rw [setFile, he]; rfl⟩

theorem setFileIn_err_dir : ∀ (cs : List (String × FSTree)) (n : String) (p2 : FPath)
    (m : ℚ) {em : ℚ} {ecs : List (String × FSTree)},
    findIn cs n p2 = some (FSTree.dir em ecs) →
    ∃ e, setFileIn cs n p2 m = Except.error e
  | [], n, p2, m, _, _, hf => by
    rw [findIn] at hf
    exact Option.noConfusion hf
  | (j, t) :: rest, n, p2, m, _, _, hf => by
    by_cases hjn : j = n
    · subst hjn
      rw [findIn_cons_self] at hf
      cases p2 with
      | nil =>
        rw [FSTree.find] at hf
        injection hf with hf2
        subst hf2
        exact ⟨"IsADirectoryError", by rw [setFileIn, if_pos rfl]⟩
      | cons y p3 =>
        obtain ⟨e, he⟩ := setFile_err_dir t (y :: p3) m hf
        exact ⟨e, by rw [setFileIn, if_pos rfl, he]; rfl⟩
    · rw [findIn, if_neg hjn] at hf
      obtain ⟨e, he⟩ := setFileIn_err_dir rest n p2 m hf
      exact ⟨e, by rw [setFileIn_cons_ne j t rest n p2 m hjn, he]; rfl⟩
end

mutual
theorem setFile_err_file_above : ∀ (t : FSTree) (q : FPath) {fm : ℚ} (r : FPath) (m : ℚ),
    t.find q = some (FSTree.file fm) → r ≠ [] → ∃ e, setFile t (q ++ r) m = Except.error e
  | t, [], fm, r, m, hf, hr => by
    rw [FSTree.find] at hf
    injection hf with hf2
    subst hf2
    cases r with
    | nil => exact absurd rfl hr
    | cons y r2 => exact ⟨"NotADirectoryError", by rw [List.nil_append, setFile]⟩
  | FSTree.file fm2, y :: q2, fm, r, m, hf, hr => by
    rw [FSTree.find] at hf
    exact Option.noConfusion hf
  | FSTree.dir dm cs, y :: q2, fm, r, m, hf, hr => by
    rw [FSTree.find] at hf
    obtain ⟨e, he⟩ := setFileIn_err_file_above cs y q2 r m hf hr
    exact ⟨e, by rw [List.cons_append, setFile, he]; rfl⟩

theorem setFileIn_err_file_above : ∀ (cs : List (String × FSTree)) (n : String)
    (q2 : FPath) {fm : ℚ} (r : FPath) (m : ℚ),
    findIn cs n q2 = some (FSTree.file fm) → r ≠ [] →
    ∃ e, setFileIn cs n (q2 ++ r) m = Except.error e
  | [], n, q2, fm, r, m, hf, hr => by
    rw [findIn] at hf
    exact Option.noConfusion hf
  | (j, t) :: rest, n, q2, fm, r, m, hf, hr => by
    by_cases hjn : j = n
    · subst hjn
      rw [findIn_cons_self] at hf
      cases q2 with
      | nil =>
        rw [FSTree.find] at hf
        injection hf with hf2
        subst hf2
        cases r with
        | nil => exact absurd rfl hr
        | cons y r2 =>
          refine ⟨"NotADirectoryError", ?_⟩
          rw [List.nil_append, setFileIn, if_pos rfl, setFile]
          rfl
      | cons z q3 =>
        obtain ⟨e, he⟩ := setFile_err_file_above t (z :: q3) r m hf hr
        refine ⟨e, ?_⟩
        rw [List.cons_append] at he
        rw [List.cons_append, setFileIn, if_pos rfl, he]
        rfl
    · rw [findIn, if_neg hjn] at hf
      obtain ⟨e, he⟩ := setFileIn_err_file_above rest n q2 r m hf hr
      exact ⟨e, by rw [setFileIn_cons_ne j t rest n (q2 ++ r) m hjn, he]; rfl⟩
end

mutual
theorem makedirs_err_file_above : ∀ (t : FSTree) (q : FPath) {fm : ℚ} (r : FPath),
    t.find q = some (FSTree.file fm) → r ≠ [] → ∃ e, makedirs t (q ++ r) = Except.error e
  | t, [], fm, r, hf, hr => by
    rw [FSTree.find] at hf
    injection hf with hf2
    subst hf2
    cases r with
    | nil => exact absurd rfl hr
    | cons y r2 => exact ⟨"NotADirectoryError", by rw [List.nil_append, makedirs]⟩
  | FSTree.file fm2, y :: q2, fm, r, hf, hr => by
    rw [FSTree.find] at hf
    exact Option.noConfusion hf
  | FSTree.dir dm cs, y :: q2, fm, r, hf, hr => by
    rw [FSTree.find] at hf
    obtain ⟨e, he⟩ := makedirsIn_err_file_above cs y q2 r hf hr
    exact ⟨e, by rw [List.cons_append, makedirs, he]; rfl⟩

theorem makedirsIn_err_file_above : ∀ (cs : List (String × FSTree)) (n : String)
    (q2 : FPath) {fm : ℚ} (r : FPath),
    findIn cs n q2 = some (FSTree.file fm) → r ≠ [] →
    ∃ e, makedirsIn cs n (q2 ++ r) = Except.error e
  | [], n, q2, fm, r, hf, hr => by
    rw [findIn] at hf
    exact Option.noConfusion hf
  | (j, t) :: rest, n, q2, fm, r, hf, hr => by
    by_cases hjn : j = n
    · subst hjn
      rw [findIn_cons_self] at hf
      cases q2 with
      | nil =>
        rw [FSTree.find] at hf
        injection hf with hf2
        subst hf2
        cases r with
        | nil => exact absurd rfl hr
        | cons y r2 =>
          refine ⟨"NotADirectoryError", ?_⟩
          rw [List.nil_append, makedirsIn, if_pos rfl, makedirs]
          rfl
      | cons z q3 =>
        obtain ⟨e, he⟩ := makedirs_err_file_above t (z :: q3) r hf hr
        refine ⟨e, ?_⟩
        rw [List.cons_append] at he
        rw [List.cons_append, makedirsIn, if_pos rfl, he]
        rfl
    · rw [findIn, if_neg hjn] at hf
      obtain ⟨e, he⟩ := makedirsIn_err_file_above rest n q2 r hf hr
      exact ⟨e, by rw [makedirsIn, if_neg hjn, he]; rfl⟩
end

/-! One copy step cannot disturb a delete or overwrite candidate. -/

theorem setFile_step_preserves (source target : FSTree) {fs fs2 : FSTree} {p q : FPath}
    {sm : ℚ}
    (hsp : source.find p = some (FSTree.file sm))
    (hcc : copyCondition target p sm = true)
    (hfsq : fs.find q = target.find q)
    (hq : protectedFacts source target q)
    (hok : setFile fs p sm = Except.ok fs2) :
    fs2.find q = fs.find q := by
  obtain ⟨hts, hdisj⟩ := hq
  obtain ⟨eq0, heq⟩ := Option.isSome_iff_exists.mp hts
  by_cases huqp : under q p
  · obtain ⟨r, rfl⟩ := huqp
    cases r with
    | nil =>
      exfalso
      simp only [List.append_nil] at hsp hcc
      rcases hdisj with hnone | ⟨u, tq, hsu, htq, hlt⟩
      · rw [hnone] at hsp
        exact Option.noConfusion hsp
      · rw [hsu] at hsp
        injection hsp with hsp2
        subst hsp2
        have hlt2 : sm < tq := hlt
        rcases copyCondition_true_iff.mp hcc with hfalse | ⟨tm, htm, hlt3⟩
        · rw [existsAt_false_iff] at hfalse
          rw [hfalse] at htq
          exact Option.noConfusion htq
        · have he2 : tm = tq := by
            have h3 := mtimeAt_find htq
            exact Option.some_inj.mp (htm.symm.trans h3)
          exact lt_asymm hlt2 (he2 ▸ hlt3)
    | cons y r2 =>
      exfalso
      rcases hdisj with hnone | ⟨u, tq, hsu, htq, hlt⟩
      · rw [find_append, hnone] at hsp
        exact Option.noConfusion hsp
      · have hfq : fs.find q = some (FSTree.file tq) := by rw [hfsq, htq]
        obtain ⟨e, he⟩ := setFile_err_file_above fs q (y :: r2) sm hfq (by simp)
        rw [he] at hok
        exact Except.noConfusion hok
  · by_cases hupq : under p q
    · obtain ⟨r, rfl⟩ := hupq
      have hrne : r ≠ [] := by
        rintro rfl
        exact huqp (by rw [List.append_nil]; exact under_refl p)
      have hfq : (fs.find (p ++ r)).isSome = true := by
        rw [hfsq, heq]
        rfl
      obtain ⟨u2, hu2⟩ := Option.isSome_iff_exists.mp hfq
      obtain ⟨em, ecs, hdir⟩ := find_dir_of_strict hrne hu2
      obtain ⟨e, he⟩ := setFile_err_dir fs p sm hdir
      rw [he] at hok
      exact Except.noConfusion hok
    · exact setFile_find_other fs p sm fs2 q hok hupq huqp

theorem copyOp_preserves (source target : FSTree) {fs : FSTree} {p q : FPath} {sm : ℚ}
    (hpne : p ≠ [])
    (hsp : source.find p = some (FSTree.file sm))
    (hcc : copyCondition target p sm = true)
    (hfsq : fs.find q = target.find q)
    (hq : protectedFacts source target q) :
    ∀ {r : FSTree × String}, copyOp source fs p = Except.ok r → r.1.find q = fs.find q := by
  intro r hok
  have hts := hq.1
  obtain ⟨eq0, heq⟩ := Option.isSome_iff_exists.mp hts
  unfold copyOp at hok
  by_cases hex : fs.existsAt (dirname p)
  · rw [if_pos hex] at hok
    have hok2 : (copy2 source fs p).map
        (fun fs2 => (fs2, "Copied " ++ pathStr p ++ " to " ++ pathStr p)) = Except.ok r := hok
    obtain ⟨fs2, hc2, hr⟩ := exceptMap_ok hok2
    rw [copy2, hsp] at hc2
    subst hr
    exact setFile_step_preserves source target hsp hcc hfsq hq hc2
  · rw [if_neg hex] at hok
    cases hmk : makedirs fs (dirname p) with
    | error e =>
      rw [hmk] at hok
      exact Except.noConfusion hok
    | ok fs1 =>
      rw [hmk] at hok
      have hok2 : (copy2 source fs1 p).map
          (fun fs2 => (fs2, "Copied " ++ pathStr p ++ " to " ++ pathStr p)) = Except.ok r := hok
      obtain ⟨fs2, hc2, hr⟩ := exceptMap_ok hok2
      rw [copy2, hsp] at hc2
      subst hr
      have hfq : (fs.find q).isSome = true := by
        rw [hfsq, heq]
        rfl
      have hnotdq : ¬ under (dirname p) q := by
        intro hu
        have := find_some_of_under hu hfq
        exact hex this
      have hnotqd : ¬ under q (dirname p) := by
        intro hu
        obtain ⟨s, hs⟩ := hu
        rcases hq.2 with hnone | ⟨u, tq, hsu, htq, hlt⟩
        · have hp2 : p = q ++ (s ++ [p.getLast hpne]) := by
            rw [← List.append_assoc, ← hs]
            unfold dirname
            exact (List.dropLast_append_getLast hpne).symm
          rw [hp2, find_append, hnone] at hsp
          exact Option.noConfusion hsp
        · cases s with
          | nil =>
            apply hex
            rw [List.append_nil] at hs
            unfold FSTree.existsAt
            rw [hs]
            exact hfq
          | cons y s2 =>
            have hfq2 : fs.find q = some (FSTree.file tq) := by rw [hfsq, htq]
            obtain ⟨e, he⟩ := makedirs_err_file_above fs q (y :: s2) hfq2 (by simp)
            rw [← hs] at he
            rw [he] at hmk
            exact Except.noConfusion hmk
      have hstep1 : fs1.find q = fs.find q :=
        makedirs_find_other fs (dirname p) fs1 q hmk hnotdq hnotqd
      have hstep2 : fs2.find q = fs1.find q :=
        setFile_step_preserves source target hsp hcc (hstep1.trans hfsq) ⟨hts, hq.2⟩ hc2
      exact hstep2.trans hstep1

theorem copyPhase_preserves (source target : FSTree) {q : FPath}
    (hq : protectedFacts source target q) :
    ∀ (l : List FPath) (fs : FSTree) (lg er : List String),
    (∀ p ∈ l, p ≠ [] ∧ ∃ sm, source.find p = some (FSTree.file sm) ∧
      copyCondition target p sm = true) →
    fs.find q = target.find q →
    (runPhase (copyOp source) "Error copying " ⟨fs, lg, er⟩ l).fs.find q = target.find q
  | [], fs, lg, er, _, hfsq => by
    rw [runPhase]
    exact hfsq
  | p :: rest, fs, lg, er, hall, hfsq => by
    obtain ⟨hpne, sm, hsp, hcc⟩ := hall p (List.mem_cons_self _ _)
    cases hop : copyOp source fs p with
    | ok r =>
      rw [runPhase]
      simp only [hop]
      exact copyPhase_preserves source target hq rest r.1 (lg ++ [r.2]) er
        (fun p2 hp2 => hall p2 (List.mem_cons_of_mem _ hp2))
        ((copyOp_preserves source target hpne hsp hcc hfsq hq hop).trans hfsq)
    | error e =>
      rw [runPhase]
      simp only [hop]
      exact copyPhase_preserves source target hq rest fs lg
        (er ++ ["Error copying " ++ pathStr p ++ ": " ++ e])
        (fun p2 hp2 => hall p2 (List.mem_cons_of_mem _ hp2)) hfsq

theorem syncRun_declined_form (source target : FSTree) (sn answer : String)
    (hno : isYes answer = false) :
    ∃ lg0, syncRun source target sn answer =
      runPhase (copyOp source) "Error copying " ⟨target, lg0, []⟩
        (syncPlan source target sn).copyCandidates := by
  simp only [syncRun]
  by_cases hc : 0 < (deletionSummary (syncPlan source target sn).deleteCandidates).length ∨
      0 < (overwriteSummary (syncPlan source target sn).overwriteCandidates).length
  · rw [if_pos hc, hno]
    exact ⟨_, rfl⟩
  · rw [if_neg hc]
    exact ⟨[], rfl⟩

/-- C7: when the confirmation prompt is declined, neither the deletion
loop nor the overwrite loop runs: the run is exactly the copy loop
started from the untouched target, every delete and overwrite candidate
path resolves afterwards to exactly what the target held before, the
error list is exactly the copy loop's, and the copy loop attempts every
copy candidate (each one contributes either a progress line or an error
entry). -/
theorem C7_declined_confirmation_copies_only (source target : FSTree) (sn answer : String)
    (hwfs : source.wf = true) (hwft : target.wf = true) (hno : isYes answer = false) :
    (∀ p, p ∈ (syncPlan source target sn).deleteCandidates →
        (syncRun source target sn answer).fs.find p = target.find p) ∧
    (∀ p, p ∈ (syncPlan source target sn).overwriteCandidates →
        (syncRun source target sn answer).fs.find p = target.find p) ∧
    (syncRun source target sn answer).fs =
      (runPhase (copyOp source) "Error copying " ⟨target, [], []⟩
        (syncPlan source target sn).copyCandidates).fs ∧
    (syncRun source target sn answer).errors =
      (runPhase (copyOp source) "Error copying " ⟨target, [], []⟩
        (syncPlan source target sn).copyCandidates).errors ∧
    (runPhase (copyOp source) "Error copying " ⟨target, [], []⟩
          (syncPlan source target sn).copyCandidates).log.length +
        (runPhase (copyOp source) "Error copying " ⟨target, [], []⟩
          (syncPlan source target sn).copyCandidates).errors.length =
      (syncPlan source target sn).copyCandidates.length := by
  obtain ⟨lg0, hrun⟩ := syncRun_declined_form source target sn answer hno
  have hfacts : ∀ p ∈ (syncPlan source target sn).copyCandidates,
      p ≠ [] ∧ ∃ sm, source.find p = some (FSTree.file sm) ∧
        copyCondition target p sm = true :=
    fun p hp => copyCandidates_facts hwfs hp
  refine ⟨?_, ?_, ?_, ?_, ?_⟩
  · intro p hp
    rw [hrun]
    exact copyPhase_preserves source target (protected_of_delete hwft hp) _ target lg0 []
      hfacts rfl
  · intro p hp
    rw [hrun]
    exact copyPhase_preserves source target (protected_of_overwrite hwft hp) _ target lg0 []
      hfacts rfl
  · rw [hrun,
      runPhase_shift (copyOp source) "Error copying "
        (syncPlan source target sn).copyCandidates target lg0 []]
  · rw [hrun,
      runPhase_shift (copyOp source) "Error copying "
        (syncPlan source target sn).copyCandidates target lg0 []]
    simp
  · have := runPhase_count (copyOp source) "Error copying "
      (syncPlan source target sn).copyCandidates ⟨target, [], []⟩
    simpa using this

/-- C7 witness: with the confirmation answered "n", the orphan entries
of a concrete target survive the run. -/
theorem C7_declined_confirmation_copies_only_wit :
    cxEmpty.wf = true ∧ cxTarget3.wf = true ∧ isYes "n" = false ∧
    (∀ p, p ∈ (syncPlan cxEmpty cxTarget3 "sync.py").deleteCandidates →
        (syncRun cxEmpty cxTarget3 "sync.py" "n").fs.find p = cxTarget3.find p) :=
  ⟨by decide, by decide, by decide,
    (C7_declined_confirmation_copies_only cxEmpty cxTarget3 "sync.py" "n"
      (by decide) (by decide) (by decide)).1⟩

/-- C8: execution is per-operation isolated and never aborts.  First
conjunct: for any of the execution loops (`runPhase` instantiated at
`deleteOp`, `overwriteOp source` or `copyOp source`), when the operation
on the head candidate fails with message `e`, the loop leaves the tree
and the progress log exactly as the loop over the remaining candidates
alone would, and merely records one error entry carrying the path and
the underlying message — every subsequent candidate is still processed.
Second conjunct: a confirmed run is the three loops in sequence, its
final error list being the concatenation of the three loops' error
lists, returned together after all phases. -/
theorem C8_errors_isolated_and_reported
    (op : FSTree → FPath → Except String (FSTree × String)) (pre : String)
    (fs : FSTree) (lg er : List String) (p : FPath) (rest : List FPath) (e : String)
    (source target : FSTree) (sn answer : String)
    (hfail : op fs p = Except.error e)
    (hyes : isYes answer = true)
    (hne : 0 < (deletionSummary (syncPlan source target sn).deleteCandidates).length ∨
      0 < (overwriteSummary (syncPlan source target sn).overwriteCandidates).length) :
    (runPhase op pre ⟨fs, lg, er⟩ (p :: rest) =
      ⟨(runPhase op pre ⟨fs, [], []⟩ rest).fs,
        lg ++ (runPhase op pre ⟨fs, [], []⟩ rest).log,
        er ++ ((pre ++ pathStr p ++ ": " ++ e) ::
          (runPhase op pre ⟨fs, [], []⟩ rest).errors)⟩) ∧
    ((syncRun source target sn answer).errors =
      (runPhase deleteOp "Error deleting " ⟨target, [], []⟩
          (syncPlan source target sn).deleteCandidates).errors ++
        (runPhase (overwriteOp source) "Error overwriting "
            ⟨(runPhase deleteOp "Error deleting " ⟨target, [], []⟩
                (syncPlan source target sn).deleteCandidates).fs, [], []⟩
            (syncPlan source target sn).overwriteCandidates).errors ++
        (runPhase (copyOp source) "Error copying "
            ⟨(runPhase (overwriteOp source) "Error overwriting "
                ⟨(runPhase deleteOp "Error deleting " ⟨target, [], []⟩
                    (syncPlan source target sn).deleteCandidates).fs, [], []⟩
                (syncPlan source target sn).overwriteCandidates).fs, [], []⟩
            (syncPlan source target sn).copyCandidates).errors) := by
  constructor
  · rw [runPhase]
    simp only [hfail]
    rw [runPhase_shift op pre rest fs lg (er ++ [pre ++ pathStr p ++ ": " ++ e])]
    simp [List.append_assoc]
  · simp only [syncRun]
    rw [if_pos hne, hyes]
    rw [runPhase_shift deleteOp "Error deleting "
      (syncPlan source target sn).deleteCandidates target
      (deletionSummary (syncPlan source target sn).deleteCandidates ++
        overwriteSummary (syncPlan source target sn).overwriteCandidates) []]
    simp only [List.nil_append]
    rw [runPhase_shift (overwriteOp source) "Error overwriting "
      (syncPlan source target sn).overwriteCandidates _ _ _]
    rw [runPhase_shift (copyOp source) "Error copying "
      (syncPlan source target sn).copyCandidates _ _ _]
    simp [List.append_assoc]

/-- C8 witness: a failing delete on a missing path is recorded and does
not disturb the rest of the run. -/
theorem C8_errors_isolated_and_reported_wit :
    deleteOp cxEmpty ["ghost.txt"] = Except.error "FileNotFoundError" ∧
    isYes "y" = true ∧
    (0 < (deletionSummary (syncPlan cxEmpty cxTarget3 "sync.py").deleteCandidates).length ∨
      0 < (overwriteSummary
        (syncPlan cxEmpty cxTarget3 "sync.py").overwriteCandidates).length) ∧
    ((runPhase deleteOp "Error deleting " ⟨cxEmpty, [], []⟩ (["ghost.txt"] :: []) =
      ⟨(runPhase deleteOp "Error deleting " ⟨cxEmpty, [], []⟩ []).fs,
        [] ++ (runPhase deleteOp "Error deleting " ⟨cxEmpty, [], []⟩ []).log,
        [] ++ (("Error deleting " ++ pathStr ["ghost.txt"] ++ ": " ++ "FileNotFoundError") ::
          (runPhase deleteOp "Error deleting " ⟨cxEmpty, [], []⟩ []).errors)⟩) ∧
    ((syncRun cxEmpty cxTarget3 "sync.py" "y").errors =
      (runPhase deleteOp "Error deleting " ⟨cxTarget3, [], []⟩
          (syncPlan cxEmpty cxTarget3 "sync.py").deleteCandidates).errors ++
        (runPhase (overwriteOp cxEmpty) "Error overwriting "
            ⟨(runPhase deleteOp "Error deleting " ⟨cxTarget3, [], []⟩
                (syncPlan cxEmpty cxTarget3 "sync.py").deleteCandidates).fs, [], []⟩
            (syncPlan cxEmpty cxTarget3 "sync.py").overwriteCandidates).errors ++
        (runPhase (copyOp cxEmpty) "Error copying "
            ⟨(runPhase (overwriteOp cxEmpty) "Error overwriting "
                ⟨(runPhase deleteOp "Error deleting " ⟨cxTarget3, [], []⟩
                    (syncPlan cxEmpty cxTarget3 "sync.py").deleteCandidates).fs, [], []⟩
                (syncPlan cxEmpty cxTarget3 "sync.py").overwriteCandidates).fs, [], []⟩
            (syncPlan cxEmpty cxTarget3 "sync.py").copyCandidates).errors)) :=
  ⟨rfl, by decide, by decide,
    C8_errors_isolated_and_reported deleteOp "Error deleting " cxEmpty [] [] ["ghost.txt"]
      [] "FileNotFoundError" cxEmpty cxTarget3 "sync.py" "y" rfl (by decide) (by decide)⟩

end Sync
